import Mathlib

/-
Verification of the `tryhard` Result library's coordination core against its
specification: the concurrency-bounded aggregator `all` (src/src/all.ts and the
rewritten variant in src/unnamed/part_000), the generator-driven composition
engine `Result.gen`, and the retrying fallible-call wrapper `Result.try` /
`Result.tryPromise`.

The asynchronous source code is embedded shallowly.  A promise's settlement
schedule is made explicit: an eager aggregator run is driven by the list of
task indices in the order their promises settle (a task whose promise never
settles simply does not appear), and a lazily scheduled run with a numeric
concurrency is driven by batches of settlements, one batch per
`await Promise.race(executing)` suspension of the driver loop.  JavaScript
arrays written at arbitrary indices are embedded as `List (Option _)`, a hole
being `none`.  The aggregate promise's state is an `Option`: `none` while it
is still pending, `some r` once it has been resolved with `r`; resolving twice
is a no-op for the second call, exactly as for a JS promise executor.
-/

namespace Tryhard

/-- Result<T, E> (src/result.ts is exported as status "ok" with `value` or
status "error" with `error`; `Ok`/`Err` are its two classes). -/
inductive Result (α ε : Type) where
  | ok (value : α)
  | error (error : ε)
deriving DecidableEq, Repr

/-- Discriminator `result.isOk()`. -/
def Result.isOk : Result α ε → Bool
  | .ok _ => true
  | .error _ => false

/-- Discriminator `result.isErr()`. -/
def Result.isErr : Result α ε → Bool
  | .ok _ => false
  | .error _ => true

/-- First call to a promise executor's `resolve` wins; later calls are no-ops. -/
def resolveFirst (current : Option β) (r : β) : Option β :=
  match current with
  | some v => some v
  | none => some r

/-- JavaScript `arr[i] = x` on an array embedded as `List (Option σ)`: writing
at an index beyond the current length extends the array, padding with holes. -/
def listSetExtend (l : List (Option σ)) (i : Nat) (x : σ) : List (Option σ) :=
  if i < l.length then l.set i (some x)
  else l ++ List.replicate (i - l.length) none ++ [some x]

/-- Reading `arr[i]` from an embedded JS array: a hole or an out-of-bounds read
gives `undefined` (`none`). -/
def getHole (l : List (Option σ)) (i : Nat) : Option σ :=
  match l.get? i with
  | some o => o
  | none => none

/-- The indices `s, s+1, ..., s+n-1`, used to name the tasks of the input list
that a scheduler has not yet reached. -/
def rangeFrom : Nat → Nat → List Nat
  | _, 0 => []
  | s, n + 1 => s :: rangeFrom (s + 1) n

/- ### allEager, default mode (src/src/all.ts lines 25–58)

`allEager(promises, "default")` races the already-started promises inside one
`new Promise` executor: each promise's `.then` handler either resolves the
aggregate with the first Err it sees, or stores `result.value` at the task's
index and resolves with `Result.ok(data)` once `remaining` hits zero. -/

/-- State of the executor of `allEager` in default mode: the `data` array, the
`remaining` counter, and the aggregate promise's resolution. -/
structure EagerState (α ε : Type) where
  data : List (Option α)
  remaining : Nat
  resolved : Option (Result (List (Option α)) ε)
deriving DecidableEq, Repr

/-- The `.then` handler of `allEager` default mode, run when the promise of
task `index` settles with `tasks[index]` (src/src/all.ts lines 45–55): an Err
resolves the aggregate at once (first error wins, subsequent calls are no-ops);
an Ok stores its value and resolves with `Result.ok(data)` when it was the
last outstanding task. -/
def allEagerHandle (tasks : List (Result α ε)) (st : EagerState α ε) (index : Nat) :
    EagerState α ε :=
  match tasks.get? index with
  | none => st
  | some (.error e) => { st with resolved := resolveFirst st.resolved (.error e) }
  | some (.ok v) =>
      let data := st.data.set index (some v)
      let remaining := st.remaining - 1
      { data := data, remaining := remaining,
        resolved := if remaining = 0 then resolveFirst st.resolved (.ok data) else st.resolved }

/-- allEager in default mode (src/src/all.ts lines 36–57), run against the
settlement sequence `order` (task indices in the order their promises settle).
`tasks` gives each task's eventual Result.  Returns the aggregate promise's
state after those settlements: `none` while still pending. -/
def allEagerDefaultRun (tasks : List (Result α ε)) (order : List Nat) :
    Option (Result (List (Option α)) ε) :=
  if tasks.length = 0 then some (.ok [])
  else (order.foldl (allEagerHandle tasks)
    { data := List.replicate tasks.length none, remaining := tasks.length, resolved := none }).resolved

/- ### allEager, settled mode (src/src/all.ts line 33): `await Promise.all(promises)`.

`Promise.all` itself stores each settled value at its index and resolves with
the full array once every input promise has settled. -/

/-- State of the `Promise.all` combinator over promises whose eventual values
are `tasks : List ρ`. -/
structure PromiseAllState (ρ : Type) where
  data : List (Option ρ)
  remaining : Nat
  resolved : Option (List (Option ρ))
deriving DecidableEq, Repr

/-- Settlement handler of `Promise.all`: store the value, and resolve with the
array when every promise has settled. -/
def promiseAllHandle (tasks : List ρ) (st : PromiseAllState ρ) (index : Nat) :
    PromiseAllState ρ :=
  match tasks.get? index with
  | none => st
  | some r =>
      let data := st.data.set index (some r)
      let remaining := st.remaining - 1
      { data := data, remaining := remaining,
        resolved := if remaining = 0 then resolveFirst st.resolved data else st.resolved }

/-- `Promise.all(promises)` run against the settlement sequence `order`: the
embedding of allEager's settled mode (src/src/all.ts lines 32–34), whose result
array holds each task's own Result at the task's index. -/
def promiseAllRun (tasks : List ρ) (order : List Nat) : Option (List (Option ρ)) :=
  if tasks.length = 0 then some []
  else (order.foldl (promiseAllHandle tasks)
    { data := List.replicate tasks.length none, remaining := tasks.length, resolved := none }).resolved

/- ### allLazy with a numeric concurrency (src/src/all.ts lines 97–135)

The driver keeps a `Set` of executing promises and a queue of not-yet-started
thunks, refills `executing` up to `concurrency`, awaits
`Promise.race(executing)`, returns the race winner if it is an Err in default
mode, and loops while work remains.  Tasks are identified by their input index:
the source shifts thunks off a copy of the input and pairs each with the
running counter `index`, which yields exactly the indices 0, 1, 2, ... in
order, so the queue is embedded as the list of unstarted indices. -/

/-- Scheduler state of allLazy with a numeric concurrency: the executing set
(task indices, in insertion order), the queue of unstarted task indices, and
the `results` output array. -/
structure RaceState (σ : Type) where
  executing : List Nat
  queue : List Nat
  results : List (Option σ)
deriving DecidableEq, Repr

/-- The inner `while (executing.size < concurrency)` loop (src/src/all.ts
lines 102–122) on the (executing, queue) pair: shift the next thunk off the
queue and start it, until the cap is reached or the queue is empty. -/
def refillGo (K : Nat) (executing : List Nat) : List Nat → List Nat × List Nat
  | [] => (executing, [])
  | i :: rest =>
      if executing.length < K then refillGo K (executing ++ [i]) rest
      else (executing, i :: rest)

/-- The refill loop applied to a scheduler state. -/
def refill (K : Nat) (st : RaceState σ) : RaceState σ :=
  let exq := refillGo K st.executing st.queue
  { executing := exq.1, queue := exq.2, results := st.results }

/-- The `.then` bookkeeping handler in default mode (src/src/all.ts lines
111–121) for the settlement of task `i`: delete the promise from `executing`;
an Ok stores `result.value` at the task's index; an Err stores nothing — per
the source comment, returning the error is left to the `Promise.race` winner
check. -/
def raceHandleDefault (tasks : List (Result α ε)) (st : RaceState α) (i : Nat) :
    RaceState α :=
  { st with
    executing := st.executing.erase i,
    results :=
      match tasks.get? i with
      | some (.ok v) => listSetExtend st.results i v
      | _ => st.results }

/-- The `.then` bookkeeping handler in settled mode (src/src/all.ts lines
111–116): delete the promise from `executing` and store the task's full Result
at the task's index. -/
def raceHandleSettled (tasks : List (Result α ε)) (st : RaceState (Result α ε)) (i : Nat) :
    RaceState (Result α ε) :=
  { st with
    executing := st.executing.erase i,
    results :=
      match tasks.get? i with
      | some r => listSetExtend st.results i r
      | none => st.results }

/-- The `do { ... } while (executing.size > 0 || queue.length > 0)` driver of
allLazy in default mode (src/src/all.ts lines 101–134), driven by `schedule`:
one batch per `await Promise.race(executing)`, listing in settlement order the
tasks that settle before the driver resumes; the race winner is the batch's
first element.  Every batch task's bookkeeping handler runs, then the driver
checks the winner (returning it if it is an Err), exits the loop returning
`Result.ok(results)` when nothing is executing or queued, and otherwise refills
and races again.  `none` means the aggregate promise is still pending when the
schedule is exhausted (an empty batch stands for a race that never resolves). -/
def raceDefaultLoop (tasks : List (Result α ε)) (K : Nat) :
    RaceState α → List (List Nat) → Option (Result (List (Option α)) ε)
  | _, [] => none
  | st, batch :: rest =>
      let stR := refill K st
      match batch with
      | [] => none
      | w :: _ =>
          let st' := batch.foldl (raceHandleDefault tasks) stR
          match tasks.get? w with
          | some (.error e) => some (.error e)
          | _ =>
              if st'.executing = [] ∧ st'.queue = [] then some (.ok st'.results)
              else raceDefaultLoop tasks K st' rest

/-- Initial scheduler state of allLazy with a numeric concurrency: nothing
executing, every task index queued, empty results array. -/
def raceInit (tasks : List (Result α ε)) : RaceState σ :=
  { executing := [], queue := rangeFrom 0 tasks.length, results := [] }

/-- allLazy (src/src/all.ts) with a numeric concurrency `K` in default mode,
run from the initial state against a settlement schedule. -/
def raceDefaultRun (tasks : List (Result α ε)) (K : Nat) (schedule : List (List Nat)) :
    Option (Result (List (Option α)) ε) :=
  raceDefaultLoop tasks K (raceInit tasks) schedule

/-- The allLazy driver loop in settled mode (src/src/all.ts lines 101–134):
identical to the default-mode driver except that the winner check is skipped
(`winner.isErr() && mode === "default"` is false) and loop exit returns the
bare `results` array. -/
def raceSettledLoop (tasks : List (Result α ε)) (K : Nat) :
    RaceState (Result α ε) → List (List Nat) → Option (List (Option (Result α ε)))
  | _, [] => none
  | st, batch :: rest =>
      let stR := refill K st
      match batch with
      | [] => none
      | _ :: _ =>
          let st' := batch.foldl (raceHandleSettled tasks) stR
          if st'.executing = [] ∧ st'.queue = [] then some st'.results
          else raceSettledLoop tasks K st' rest

/-- allLazy (src/src/all.ts) with a numeric concurrency `K` in settled mode,
run from the initial state against a settlement schedule. -/
def raceSettledRun (tasks : List (Result α ε)) (K : Nat) (schedule : List (List Nat)) :
    Option (List (Option (Result α ε))) :=
  raceSettledLoop tasks K (raceInit tasks) schedule

/-- Validity of a settlement schedule for the allLazy race driver: each batch
is nonempty, has no repeated settlement (a promise settles once), and settles
only tasks that are executing when the driver calls `Promise.race`; the
(executing, queue) pair is evolved exactly as the driver evolves it. -/
def raceValidGo (K : Nat) : List Nat × List Nat → List (List Nat) → Bool
  | _, [] => true
  | (ex, q), batch :: rest =>
      let exq := refillGo K ex q
      decide (batch ≠ []) && decide batch.Nodup &&
        decide (∀ i ∈ batch, i ∈ exq.1) &&
        raceValidGo K (batch.foldl (fun l i => l.erase i) exq.1, exq.2) rest

/-- Validity of a schedule for a run started on `tasks`. -/
def raceValid (tasks : List (Result α ε)) (K : Nat) (schedule : List (List Nat)) : Bool :=
  raceValidGo K ([], rangeFrom 0 tasks.length) schedule

/-- In-flight bound checker for the race driver in default mode: at each
iteration of the do/while loop, record whether the number of executing (i.e.
started but not completed) tasks just after the refill is at most `K`.  Within
a batch the executing set only shrinks, so the post-refill instant dominates
every instant of the iteration. -/
def raceExecBoundOk (tasks : List (Result α ε)) (K : Nat) :
    RaceState α → List (List Nat) → Bool
  | _, [] => true
  | st, batch :: rest =>
      let stR := refill K st
      decide (stR.executing.length ≤ K) &&
        raceExecBoundOk tasks K (batch.foldl (raceHandleDefault tasks) stR) rest

/-- Data invariant tying a race-scheduler state (settled mode) to the list `S`
of task indices settled so far: the queue holds exactly the unstarted indices
in order, the executing and settled lists are duplicate-free and disjoint and
together form the started prefix `0, ..., S.length + executing.length - 1`,
and the results array stores exactly the settled tasks' Results. -/
def RaceInv (tasks : List (Result α ε)) (S : List Nat) (st : RaceState (Result α ε)) : Prop :=
  st.queue = rangeFrom (S.length + st.executing.length)
      (tasks.length - (S.length + st.executing.length)) ∧
  S.length + st.executing.length ≤ tasks.length ∧
  st.executing.Nodup ∧ S.Nodup ∧
  (∀ i ∈ st.executing, i ∉ S) ∧
  (∀ i, (i ∈ st.executing ∨ i ∈ S) ↔ i < S.length + st.executing.length) ∧
  (∀ j, getHole st.results j = if j ∈ S then tasks.get? j else none) ∧
  st.results.length ≤ tasks.length

/- ### allLazy, rewritten pool variant (src/unnamed/part_000 lines 82–139)

This variant runs inside one `new Promise` executor with a `runNext` worker:
`poolSize = Math.min(concurrency, length)` workers are started, and each
settlement's callback either resolves the aggregate (first Err in default
mode, or all done), or starts the next task immediately.  The model adds a
`settled` bookkeeping list — the settlements whose callbacks have run — which
is not a source variable but records the fact that each promise settles at
most once; `nextIndex` is the source's `nextIndex`, `done` its `done` flag. -/

/-- State of the pool variant's executor: `results`, `nextIndex`, `remaining`,
`done`, the aggregate resolution, and the model-side `settled` record. -/
structure PoolState (σ ω : Type) where
  results : List (Option σ)
  nextIndex : Nat
  remaining : Nat
  done : Bool
  resolved : Option ω
  settled : List Nat
deriving DecidableEq, Repr

/-- `resolveOuter` (src/unnamed/part_000 lines 106–109): set the `done` flag
and resolve the aggregate promise (a second resolution is a no-op). -/
def resolveOuter (st : PoolState σ ω) (r : ω) : PoolState σ ω :=
  { st with done := true, resolved := resolveFirst st.resolved r }

/-- `runNext` scheduling part (src/unnamed/part_000 lines 111–113): do nothing
if the aggregate concluded or no unscheduled task remains, else start the task
at `nextIndex` (its settlement callback fires later, as a schedule event). -/
def runNext (total : Nat) (st : PoolState σ ω) : PoolState σ ω :=
  if st.done then st
  else if st.nextIndex < total then { st with nextIndex := st.nextIndex + 1 } else st

/-- The settlement callback of the pool variant in default mode
(src/unnamed/part_000 lines 116–133) for task `i` with result `tasks[i]`:
an Err resolves the aggregate at once and returns; an Ok stores its value,
decrements `remaining`, resolves with `Result.ok(results)` if it was the last
task, and otherwise calls `runNext()`. -/
def poolSettleDefault (tasks : List (Result α ε))
    (st : PoolState α (Result (List (Option α)) ε)) (i : Nat) :
    PoolState α (Result (List (Option α)) ε) :=
  let st1 := { st with settled := st.settled ++ [i] }
  match tasks.get? i with
  | none => st1
  | some (.error e) => resolveOuter st1 (.error e)
  | some (.ok v) =>
      let st2 := { st1 with
        results := st1.results.set i (some v)
        remaining := st1.remaining - 1 }
      if st2.remaining = 0 then resolveOuter st2 (.ok st2.results)
      else runNext tasks.length st2

/-- The settlement callback of the pool variant in settled mode
(src/unnamed/part_000 lines 116–133): store the task's full Result, decrement
`remaining`, resolve with the bare `results` array if it was the last task,
and otherwise call `runNext()`. -/
def poolSettleSettled (tasks : List (Result α ε))
    (st : PoolState (Result α ε) (List (Option (Result α ε)))) (i : Nat) :
    PoolState (Result α ε) (List (Option (Result α ε))) :=
  let st1 := { st with settled := st.settled ++ [i] }
  match tasks.get? i with
  | none => st1
  | some r =>
      let st2 := { st1 with
        results := st1.results.set i (some r)
        remaining := st1.remaining - 1 }
      if st2.remaining = 0 then resolveOuter st2 st2.results
      else runNext tasks.length st2

/-- Executor state of the pool variant before any task is started. -/
def poolInitDefault (tasks : List (Result α ε)) :
    PoolState α (Result (List (Option α)) ε) :=
  { results := List.replicate tasks.length none, nextIndex := 0,
    remaining := tasks.length, done := false, resolved := none, settled := [] }

/-- Executor state of the pool variant before any task is started, settled
mode. -/
def poolInitSettled (tasks : List (Result α ε)) :
    PoolState (Result α ε) (List (Option (Result α ε))) :=
  { results := List.replicate tasks.length none, nextIndex := 0,
    remaining := tasks.length, done := false, resolved := none, settled := [] }

/-- The initial `for (let i = 0; i < poolSize; i++) runNext()` with
`poolSize = Math.min(concurrency, lazyPromises.length)` (src/unnamed/part_000
lines 136–137), default mode. -/
def poolStartDefault (tasks : List (Result α ε)) (K : Nat) :
    PoolState α (Result (List (Option α)) ε) :=
  Nat.repeat (runNext tasks.length) (min K tasks.length) (poolInitDefault tasks)

/-- The initial worker loop, settled mode. -/
def poolStartSettled (tasks : List (Result α ε)) (K : Nat) :
    PoolState (Result α ε) (List (Option (Result α ε))) :=
  Nat.repeat (runNext tasks.length) (min K tasks.length) (poolInitSettled tasks)

/-- The pool variant of allLazy with a numeric concurrency in default mode
(src/unnamed/part_000 lines 97–138), run against a settlement schedule (a flat
list of task indices in settlement order: each settlement's callback runs
atomically).  An empty input resolves `Result.ok([])` up front (lines 97–99). -/
def poolDefaultRun (tasks : List (Result α ε)) (K : Nat) (schedule : List Nat) :
    Option (Result (List (Option α)) ε) :=
  if tasks.length = 0 then some (.ok [])
  else (schedule.foldl (poolSettleDefault tasks) (poolStartDefault tasks K)).resolved

/-- The pool variant in settled mode; an empty input resolves `[]` up front. -/
def poolSettledRun (tasks : List (Result α ε)) (K : Nat) (schedule : List Nat) :
    Option (List (Option (Result α ε))) :=
  if tasks.length = 0 then some []
  else (schedule.foldl (poolSettleSettled tasks) (poolStartSettled tasks K)).resolved

/-- Validity of a settlement schedule for the pool variant: each settled task
has been started and has not settled before. -/
def poolValidDefault (tasks : List (Result α ε)) :
    PoolState α (Result (List (Option α)) ε) → List Nat → Bool
  | _, [] => true
  | st, i :: rest =>
      decide (i < st.nextIndex) && decide (i ∉ st.settled) &&
        poolValidDefault tasks (poolSettleDefault tasks st i) rest

/-- The number of started-but-not-yet-completed tasks of a pool state: started
tasks are `0, ..., nextIndex - 1`, completed ones are the settled ones. -/
def poolInFlight (st : PoolState σ ω) : Nat :=
  st.nextIndex - st.settled.length

/- ### The public entry point `all` (src/src/all.ts lines 157–176, identical in
src/unnamed/part_000 lines 161–180)

`all(promises, options)` checks `typeof promises[0] === "function"`: if so it
delegates to allLazy with `options?.mode ?? "default"` and
`options?.concurrency ?? "unbounded"`, otherwise to allEager with only
`options?.mode ?? "default"` — the concurrency option is not forwarded. -/

/-- The `mode` option. -/
inductive Mode where
  | default
  | settled
deriving DecidableEq, Repr

/-- The `concurrency` option: `"unbounded"` or a number. -/
inductive Concurrency where
  | unbounded
  | bounded (n : Nat)
deriving DecidableEq, Repr

/-- One element of the array passed to `all`: either an already-started
promise of a Result, or a zero-argument function producing such a promise.
The payload is the element's eventual Result. -/
inductive AllElem (α ε : Type) where
  | promise (result : Result α ε)
  | thunk (result : Result α ε)
deriving DecidableEq, Repr

/-- The runtime type test `typeof x === "function"`. -/
def AllElem.isFunction : AllElem α ε → Bool
  | .promise _ => false
  | .thunk _ => true

/-- The delegation `all` performs: which implementation is called with which
arguments (src/src/all.ts lines 167–175).  `eagerCall` records that allEager
receives only the promises and the mode; `lazyCall` records that allLazy also
receives the concurrency. -/
inductive AllCall (α ε : Type) where
  | eagerCall (promises : List (AllElem α ε)) (mode : Mode)
  | lazyCall (thunks : List (AllElem α ε)) (mode : Mode) (concurrency : Concurrency)
deriving DecidableEq, Repr

/-- Whether a delegation went to allLazy. -/
def AllCall.isLazyCall : AllCall α ε → Bool
  | .eagerCall _ _ => false
  | .lazyCall _ _ _ => true

/-- The entry point `all` (src/src/all.ts lines 157–176): dispatch on whether
the first element of the input is a function (`promises[0]` of an empty array
is `undefined`, which is not a function), defaulting mode to "default" and
concurrency to "unbounded". -/
def all (promises : List (AllElem α ε)) (mode : Option Mode)
    (concurrency : Option Concurrency) : AllCall α ε :=
  if (promises.head?.map AllElem.isFunction).getD false then
    .lazyCall promises (mode.getD .default) (concurrency.getD .unbounded)
  else
    .eagerCall promises (mode.getD .default)

/- ### Generator-driven composition engine `Result.gen`

Modelled from the spec: the implementation (src/result.ts) is not among the
source files — only its test suite (src/unnamed/part_003) is.  Spec §4.2: "the
driver pulls one yielded Result at a time from the step sequence.  If the
yielded Result is Ok, the driver resumes the sequence with the unwrapped value
and continues.  If it is Error, ... the aggregate call returns that Error
unchanged; no further steps execute"; if the sequence runs to its end, the
terminal step's returned Result is the aggregate.  Each step carries an id so
that a run can report which steps executed their effects: a step's effects run
exactly when the driver resumes the sequence up to that step's yield.  The
cleanup (`finally`) mechanism of §4.2 is orthogonal to the claims treated here
and is not modelled. -/

/-- Modelled from the spec: a resumable step sequence.  `done r` is the
terminal step returning `r`; `step id y k` executes the effects of step `id`,
yields the Result `y`, and continues as `k v` if the driver resumes it with a
value `v`. -/
inductive GenProgram (ε α : Type) : Type 1 where
  | done (result : Result α ε)
  | step {υ : Type} (id : Nat) (yielded : Result υ ε) (cont : υ → GenProgram ε α)

/-- Modelled from the spec: the driver of `Result.gen`, instrumented with the
trace of executed step ids.  An Ok yield resumes the continuation with the
unwrapped value; an Error yield short-circuits, executing nothing further. -/
def genDrive : GenProgram ε α → Result α ε × List Nat
  | .done r => (r, [])
  | .step id (.ok v) k =>
      let rt := genDrive (k v)
      (rt.1, id :: rt.2)
  | .step id (.error e) _ => (.error e, [id])

/-- A straight-line step sequence whose steps are numbered from `k`: the
steps yield the given Results in order, then the terminal step returns
`terminal`. -/
def ofSeqFrom (k : Nat) (yields : List (Result υ ε)) (terminal : Result α ε) :
    GenProgram ε α :=
  match yields with
  | [] => .done terminal
  | y :: rest => .step k y (fun _ => ofSeqFrom (k + 1) rest terminal)

/-- A straight-line step sequence, steps numbered from 0. -/
def ofSeq (yields : List (Result υ ε)) (terminal : Result α ε) : GenProgram ε α :=
  ofSeqFrom 0 yields terminal

/- ### Fallible-call wrapper with retry, `Result.try` / `Result.tryPromise`

Modelled from the spec: the implementation (src/result.ts) is not among the
source files — only its test suite (src/unnamed/part_003) is.  Spec §4.1:
invoke the callable; on success return Ok immediately (no retry consumed); on
throw, map the caught value through the mapping function; if a RetryPolicy was
supplied and `shouldRetry(error, attemptNumber)` allows it and attempts
remain, retry up to `attempts` total tries, returning the first Ok, otherwise
the Error from the final attempt.  `Result.tryPromise` has identical
semantics, with backoff delays between retries; delays affect only timing and
are not part of this untimed model. -/

/-- Modelled from the spec: the outcome of one invocation of the
user-supplied callable — it returns a value or throws. -/
inductive CallOutcome (α θ : Type) where
  | returns (value : α)
  | throws (thrown : θ)
deriving DecidableEq, Repr

/-- Whether an invocation threw. -/
def CallOutcome.isThrows : CallOutcome α θ → Bool
  | .returns _ => false
  | .throws _ => true

/-- Modelled from the spec (§3): a RetryPolicy with its total number of tries
and its `shouldRetry(error, attemptNumber)` predicate.  `delayMs` and
`backoff` only shape the waits between retries and are omitted from this
untimed model. -/
structure RetryPolicy (ε : Type) where
  attempts : Nat
  shouldRetry : ε → Nat → Bool

/-- Modelled from the spec: the retry loop of the wrapper.  `op j` is the
outcome of the j-th invocation of the callable (attempts are numbered from 1),
`catchFn` the caller's mapping from thrown value to domain error, `n` the
current attempt number and `fuel` the number of further tries still allowed.
Returns the wrapper's Result and the number of invocations performed. -/
def tryLoop (op : Nat → CallOutcome α θ) (catchFn : θ → ε)
    (shouldRetry : ε → Nat → Bool) : Nat → Nat → Result α ε × Nat
  | n, 0 =>
      match op n with
      | .returns v => (.ok v, n)
      | .throws t => (.error (catchFn t), n)
  | n, fuel + 1 =>
      match op n with
      | .returns v => (.ok v, n)
      | .throws t =>
          let e := catchFn t
          if shouldRetry e n then tryLoop op catchFn shouldRetry (n + 1) fuel
          else (.error e, n)

/-- Modelled from the spec: `Result.try` / `Result.tryPromise` with a
RetryPolicy — attempt 1 is always made, and at most `attempts - 1` retries
follow. -/
def tryRun (op : Nat → CallOutcome α θ) (catchFn : θ → ε) (policy : RetryPolicy ε) :
    Result α ε × Nat :=
  tryLoop op catchFn policy.shouldRetry 1 (policy.attempts - 1)

/-! ## Theorems -/

/-- Membership in `rangeFrom`: the indices from `s` to `s + n - 1`. -/
theorem mem_rangeFrom {i : Nat} : ∀ {s n : Nat}, i ∈ rangeFrom s n ↔ s ≤ i ∧ i < s + n := by
  intro s n
  induction n generalizing s with
  | zero => simp [rangeFrom]
  | succ n ih => simp only [rangeFrom, List.mem_cons, ih]; omega

/-- The driver of a straight-line all-Ok sequence numbered from `k` reaches the
terminal step, executing every step. -/
theorem genDrive_ofSeqFrom_ok (values : List υ) (terminal : Result α ε) :
    ∀ k, genDrive (ofSeqFrom k (values.map Result.ok) terminal)
      = (terminal, rangeFrom k values.length) := by
  induction values with
  | nil => intro k; simp [ofSeqFrom, genDrive, rangeFrom]
  | cons v vs ih => intro k; simp [ofSeqFrom, genDrive, rangeFrom, ih (k + 1)]

/-- The driver of a straight-line sequence numbered from `k` whose first Error
yield follows `pre.length` Ok yields short-circuits there. -/
theorem genDrive_ofSeqFrom_error (e : ε) (rest : List (Result υ ε)) (terminal : Result α ε) :
    ∀ (pre : List υ) (k : Nat),
      genDrive (ofSeqFrom k (pre.map Result.ok ++ Result.error e :: rest) terminal)
        = (.error e, rangeFrom k (pre.length + 1)) := by
  intro pre
  induction pre with
  | nil => intro k; simp [ofSeqFrom, genDrive, rangeFrom]
  | cons v vs ih => intro k; simp [ofSeqFrom, genDrive, rangeFrom, ih (k + 1)]

/-- C5: for the generator-driven composition engine (`Result.gen`): if every
step yields Ok and the terminal step returns Ok(x), the composition result is
Ok(x) (with every step `0, ..., N-1` executing); and if step k (0-indexed,
before the last step) yields Error(e), the composition result is Error(e) and
only the steps `0, ..., k` execute — no step after k executes any of its
effects. -/
theorem gen_short_circuit_semantics :
    (∀ (values : List υ) (x : α),
       genDrive (ofSeq (values.map Result.ok) (Result.ok x : Result α ε))
         = (.ok x, rangeFrom 0 values.length)) ∧
    (∀ (pre : List υ) (e : ε) (rest : List (Result υ ε)) (terminal : Result α ε),
       genDrive (ofSeq (pre.map Result.ok ++ Result.error e :: rest) terminal)
         = (.error e, rangeFrom 0 (pre.length + 1))) :=
  ⟨fun values x => genDrive_ofSeqFrom_ok values (Result.ok x) 0,
   fun pre e rest terminal => genDrive_ofSeqFrom_error e rest terminal pre 0⟩

/-- The retry loop performs at most `fuel` invocations beyond the current
attempt number. -/
theorem tryLoop_snd_le (op : Nat → CallOutcome α θ) (catchFn : θ → ε)
    (s : ε → Nat → Bool) : ∀ (fuel n : Nat), (tryLoop op catchFn s n fuel).2 ≤ n + fuel := by
  intro fuel
  induction fuel with
  | zero => intro n; cases h : op n <;> simp [tryLoop, h]
  | succ f ih =>
      intro n
      cases h : op n with
      | returns v => simp [tryLoop, h]
      | throws t =>
          by_cases hs : s (catchFn t) n = true
          · simpa [tryLoop, h, hs] using le_trans (ih (n + 1)) (by omega)
          · simp [tryLoop, h, hs]

/-- If the first success is at attempt `m`, the retry loop (with an
always-true shouldRetry) returns that success after exactly `m` invocations. -/
theorem tryLoop_first_success (op : Nat → CallOutcome α θ) (catchFn : θ → ε)
    (s : ε → Nat → Bool) (v : α) (m : Nat)
    (hs : ∀ e n, s e n = true) (hm : op m = .returns v)
    (hbefore : ∀ j, j < m → 1 ≤ j → (op j).isThrows = true) :
    ∀ fuel n, 1 ≤ n → n ≤ m → m ≤ n + fuel →
      tryLoop op catchFn s n fuel = (.ok v, m) := by
  intro fuel
  induction fuel with
  | zero =>
      intro n h1 h2 h3
      have hnm : n = m := by omega
      subst hnm
      simp [tryLoop, hm]
  | succ f ih =>
      intro n h1 h2 h3
      rcases eq_or_lt_of_le h2 with hnm | hlt
      · subst hnm; simp [tryLoop, hm]
      · have hth := hbefore n hlt h1
        cases h : op n with
        | returns w => rw [h] at hth; simp [CallOutcome.isThrows] at hth
        | throws t =>
            have hstep : tryLoop op catchFn s n (f + 1) = tryLoop op catchFn s (n + 1) f := by
              simp [tryLoop, h, hs]
            rw [hstep]
            exact ih (n + 1) (by omega) (by omega) (by omega)

/-- If every attempt from `n` through `n + fuel` throws, the retry loop (with
an always-true shouldRetry) exhausts its fuel and returns the mapped error of
the final attempt. -/
theorem tryLoop_all_throws (op : Nat → CallOutcome α θ) (catchFn : θ → ε)
    (s : ε → Nat → Bool) (t : Nat → θ) (hs : ∀ e n, s e n = true) :
    ∀ fuel n, (∀ j, n ≤ j → j ≤ n + fuel → op j = .throws (t j)) →
      tryLoop op catchFn s n fuel = (.error (catchFn (t (n + fuel))), n + fuel) := by
  intro fuel
  induction fuel with
  | zero =>
      intro n h
      have hn := h n le_rfl (by omega)
      simp [tryLoop, hn]
  | succ f ih =>
      intro n h
      have hn := h n (le_rfl) (by omega)
      have hrec := ih (n + 1) (fun j hj1 hj2 => h j (by omega) (by omega))
      have harith : (n + 1) + f = n + (f + 1) := by omega
      rw [harith] at hrec
      simp [tryLoop, hn, hs, hrec]

/-- C8: the fallible-call wrapper (`Result.try` / `Result.tryPromise`) with a
RetryPolicy of `attempts` total tries and a shouldRetry predicate that always
allows retrying: it invokes the operation at most `attempts` times; it returns
the first Ok produced, invoking the operation exactly `m` times when attempt
`m` is the first success (so no retry is consumed after a success); and if
every attempt throws it returns the mapped Error from the final attempt. -/
theorem try_retry_policy_contract :
    (∀ (op : Nat → CallOutcome α θ) (catchFn : θ → ε) (p : RetryPolicy ε),
       1 ≤ p.attempts → (tryRun op catchFn p).2 ≤ p.attempts) ∧
    (∀ (op : Nat → CallOutcome α θ) (catchFn : θ → ε) (p : RetryPolicy ε)
       (m : Nat) (v : α),
       (∀ e n, p.shouldRetry e n = true) → 1 ≤ m → m ≤ p.attempts →
       op m = .returns v → (∀ j, j < m → 1 ≤ j → (op j).isThrows = true) →
       tryRun op catchFn p = (.ok v, m)) ∧
    (∀ (op : Nat → CallOutcome α θ) (catchFn : θ → ε) (p : RetryPolicy ε)
       (t : Nat → θ),
       (∀ e n, p.shouldRetry e n = true) → 1 ≤ p.attempts →
       (∀ j, j ≤ p.attempts → 1 ≤ j → op j = .throws (t j)) →
       tryRun op catchFn p = (.error (catchFn (t p.attempts)), p.attempts)) := by
  refine ⟨?_, ?_, ?_⟩
  · intro op catchFn p hp
    exact le_trans (tryLoop_snd_le op catchFn p.shouldRetry (p.attempts - 1) 1) (by omega)
  · intro op catchFn p m v hs h1 h2 hm hbefore
    exact tryLoop_first_success op catchFn p.shouldRetry v m hs hm hbefore
      (p.attempts - 1) 1 le_rfl h1 (by omega)
  · intro op catchFn p t hs hp h
    have := tryLoop_all_throws op catchFn p.shouldRetry t hs (p.attempts - 1) 1
      (fun j hj1 hj2 => h j (by omega) (by omega))
    have harith : 1 + (p.attempts - 1) = p.attempts := by omega
    rw [harith] at this
    exact this

/-- Witness for C8: an operation that throws on attempts 1 and 2 and succeeds
on attempt 3, under RetryPolicy with 3 attempts, returns Ok after exactly 3
invocations. -/
theorem try_retry_policy_contract_witness :
    tryRun (fun n => if n ≤ 2 then CallOutcome.throws 0 else CallOutcome.returns 7)
      (fun t => t + 100) ⟨3, fun _ _ => true⟩ = (Result.ok (7 : Nat), 3) :=
  try_retry_policy_contract.2.1
    (fun n => if n ≤ 2 then CallOutcome.throws 0 else CallOutcome.returns 7)
    (fun t => t + 100) ⟨3, fun _ _ => true⟩ 3 7
    (fun _ _ => rfl) (by decide) (by decide) (by decide) (by decide)

/-- C1 (code bug): in default fail-fast mode under a numeric concurrency, the
race-based allLazy of src/src/all.ts can drop a task that settles as an Error.
With tasks `[() => Promise.resolve(Ok(1)), () => Promise.resolve(Err(2))]` and
concurrency 2, both promises are already resolved when the driver first awaits
`Promise.race`, index 0 settling first: both bookkeeping handlers run (removing
both from `executing`, the Err storing nothing), the race winner is the Ok of
index 0, and the loop exits returning `Ok([1])` — the claimed `Error(2)` is
never returned even though task 1 settled as an Error. -/
theorem allLazy_default_drops_unraced_error :
    raceDefaultRun [Result.ok 1, Result.error 2] 2 [[0, 1]]
      = some (Result.ok [some 1]) := by decide

/-- C6 (code bug): a lazy run with concurrency K = N = 2 is not equivalent to
the same tasks at unbounded concurrency.  Unbounded delegates to allEager,
whose per-settlement handler resolves the first Error; the bounded race driver
drops the same Error when it settles in the same batch behind an Ok race
winner. -/
theorem all_bounded_ge_count_not_equiv_unbounded :
    raceDefaultRun [Result.ok 10, Result.error 20] 2 [[0, 1]]
        = some (Result.ok [some 10]) ∧
      allEagerDefaultRun [Result.ok 10, Result.error 20] [0, 1]
        = some (Result.error 20) :=
  ⟨by decide, by decide⟩

/-- C7 (code bug): with exactly one task (index 1 of 3) settling as Error and
all others Ok, the race-based allLazy at concurrency 3 returns
`Ok([1, undefined, 3])` instead of the claimed `Error(2)` when all three
settle in the first race batch with the Ok of index 0 winning. -/
theorem allLazy_single_error_dropped_default :
    raceDefaultRun [Result.ok 1, Result.error 2, Result.ok 3] 3 [[0, 1, 2]]
      = some (Result.ok [some 1, none, some 3]) := by decide

/-- C9: an empty input list resolves immediately: the entry point routes it to
the eager path (its first element is not a function), allEager resolves
`Ok([])` in default mode and `Promise.all([])` resolves `[]` in settled mode
with no settlement needed, and both modes of the pool variant of allLazy
likewise resolve up front without scheduling any task. -/
theorem all_empty_input_immediate :
    (∀ (m : Option Mode) (c : Option Concurrency),
       all ([] : List (AllElem α ε)) m c = .eagerCall [] (m.getD .default)) ∧
    allEagerDefaultRun ([] : List (Result α ε)) [] = some (.ok []) ∧
    promiseAllRun ([] : List (Result α ε)) [] = some [] ∧
    (∀ K, poolDefaultRun ([] : List (Result α ε)) K [] = some (.ok [])) ∧
    (∀ K, poolSettledRun ([] : List (Result α ε)) K [] = some []) :=
  ⟨fun _ _ => rfl, rfl, rfl, fun _ => rfl, fun _ => rfl⟩

/-- C10: the entry point `all` dispatches solely on whether the first element
of the input is a function; for an input whose first element is not a function
(an eager input) the concurrency option does not influence the call at all (it
is silently ignored, with no validation error raised); and an empty input is
always routed to the eager path. -/
theorem all_dispatch_on_first_element :
    (∀ (input : List (AllElem α ε)) (m : Option Mode) (c : Option Concurrency),
       (all input m c).isLazyCall = (input.head?.map AllElem.isFunction).getD false) ∧
    (∀ (e : AllElem α ε) (input : List (AllElem α ε)) (m : Option Mode)
       (c₁ c₂ : Option Concurrency), e.isFunction = false →
       all (e :: input) m c₁ = all (e :: input) m c₂) ∧
    (∀ (m : Option Mode) (c : Option Concurrency),
       all ([] : List (AllElem α ε)) m c = .eagerCall [] (m.getD .default)) := by
  refine ⟨?_, ?_, ?_⟩
  · intro input m c
    cases input with
    | nil => rfl
    | cons e rest => cases e <;> rfl
  · intro e input m c₁ c₂ he
    cases e with
    | promise r => rfl
    | thunk r => simp [AllElem.isFunction] at he
  · intro m c; rfl

/-- Witness for C10: a nonempty eager input (first element a promise) yields
the same delegation whether a numeric concurrency is supplied or none at all. -/
theorem all_dispatch_on_first_element_witness :
    all [AllElem.promise (Result.ok (1 : Nat) : Result Nat Nat)] none
        (some (Concurrency.bounded 3))
      = all [AllElem.promise (Result.ok (1 : Nat) : Result Nat Nat)] none none :=
  all_dispatch_on_first_element.2.1 (AllElem.promise (Result.ok 1)) [] none
    (some (Concurrency.bounded 3)) none rfl

/-- A list of distinct naturals below `N` has at most `N` elements. -/
theorem nodup_lt_length_le {S : List Nat} {N : Nat} (hnd : S.Nodup)
    (hb : ∀ i ∈ S, i < N) : S.length ≤ N := by
  have hsub : S.toFinset ⊆ Finset.range N := fun x hx =>
    Finset.mem_range.mpr (hb x (List.mem_toFinset.mp hx))
  have hcard := Finset.card_le_card hsub
  rwa [List.toFinset_card_of_nodup hnd, Finset.card_range] at hcard

/-- A list containing every natural below `N` has at least `N` elements when
it has no duplicates. -/
theorem covers_le_length {S : List Nat} {N : Nat} (hnd : S.Nodup)
    (hcov : ∀ j, j < N → j ∈ S) : N ≤ S.length := by
  have hsub : Finset.range N ⊆ S.toFinset := fun x hx =>
    List.mem_toFinset.mpr (hcov x (Finset.mem_range.mp hx))
  have hcard := Finset.card_le_card hsub
  rwa [Finset.card_range, List.toFinset_card_of_nodup hnd] at hcard

/-- A list of exactly `N` distinct naturals below `N` contains every natural
below `N`. -/
theorem nodup_lt_full_mem {S : List Nat} {N : Nat} (hnd : S.Nodup)
    (hb : ∀ i ∈ S, i < N) (hlen : S.length = N) : ∀ j, j < N → j ∈ S := by
  have hsub : S.toFinset ⊆ Finset.range N := fun x hx =>
    Finset.mem_range.mpr (hb x (List.mem_toFinset.mp hx))
  have hcard : (Finset.range N).card ≤ S.toFinset.card := by
    rw [List.toFinset_card_of_nodup hnd, Finset.card_range, hlen]
  have heq := Finset.eq_of_subset_of_card_le hsub hcard
  intro j hj
  exact List.mem_toFinset.mp (heq ▸ Finset.mem_range.mpr hj)

/-- An index below the length of a list is present. -/
theorem get?_is_some_of_lt {l : List α} {i : Nat} (h : i < l.length) :
    ∃ v, l.get? i = some v := by
  cases hv : l.get? i with
  | none => exact absurd (List.get?_eq_none.mp hv) (by omega)
  | some v => exact ⟨v, rfl⟩

/-- Once the allEager default-mode aggregate promise is resolved, later
settlements cannot change its value (`resolve` is a no-op after the first
call). -/
theorem allEagerHandle_resolved_persist (tasks : List (Result α ε))
    (r : Result (List (Option α)) ε) :
    ∀ (order : List Nat) (st : EagerState α ε), st.resolved = some r →
      (order.foldl (allEagerHandle tasks) st).resolved = some r := by
  intro order
  induction order with
  | nil => intro st h; exact h
  | cons i rest ih =>
      intro st h
      rw [List.foldl_cons]
      apply ih
      unfold allEagerHandle
      cases hg : tasks.get? i with
      | none => exact h
      | some res =>
          cases res with
          | ok v =>
              simp only
              split <;> simp [resolveFirst, h]
          | error e => simp [resolveFirst, h]

/-- Invariant induction for allEager in default mode over all-Ok tasks: from a
state in which the settled set `S` has stored its values, processing the
remaining settlements `rest` (which together with `S` cover every task)
resolves the aggregate with all values in original index order. -/
theorem allEager_default_all_ok_go {α ε : Type} (values : List α) :
    ∀ (rest : List Nat) (S : List Nat) (st : EagerState α ε),
      st.data.length = values.length →
      (∀ j, j ∈ S → st.data.get? j = (values.get? j).map some) →
      (∀ j, j < values.length → j ∉ S → st.data.get? j = some none) →
      st.remaining = values.length - S.length →
      S.Nodup → (∀ j ∈ S, j < values.length) → S.length < values.length →
      st.resolved = none →
      rest.Nodup → (∀ i ∈ rest, i < values.length ∧ i ∉ S) →
      (∀ j, j < values.length → j ∈ S ∨ j ∈ rest) →
      (rest.foldl (allEagerHandle (values.map Result.ok : List (Result α ε))) st).resolved
        = some (.ok (values.map some)) := by
  intro rest
  induction rest with
  | nil =>
      intro S st _ _ _ _ hSnd _ hSlt _ _ _ hcov
      exfalso
      have hge := covers_le_length hSnd (fun j hj => (hcov j hj).resolve_right (by simp))
      omega
  | cons i rest' ih =>
      intro S st hlen hS hnotS hrem hSnd hSb hSlt hres hnd hmem hcov
      obtain ⟨hiN, hiS⟩ := hmem i (List.mem_cons_self i rest')
      obtain ⟨v, hv⟩ := get?_is_some_of_lt hiN
      have hgi : (values.map Result.ok : List (Result α ε)).get? i = some (.ok v) := by
        rw [List.get?_map, hv]; rfl
      rw [List.foldl_cons]
      have hstep : allEagerHandle (values.map Result.ok : List (Result α ε)) st i =
          { data := st.data.set i (some v), remaining := st.remaining - 1,
            resolved := if st.remaining - 1 = 0
              then resolveFirst st.resolved (.ok (st.data.set i (some v)))
              else st.resolved } := by
        unfold allEagerHandle
        rw [hgi]
      have hSnd' : (S ++ [i]).Nodup := by simp [List.nodup_append, hSnd, hiS]
      have hSb' : ∀ j ∈ S ++ [i], j < values.length := by
        intro j hj
        rcases List.mem_append.mp hj with hj | hj
        · exact hSb j hj
        · simp at hj; omega
      by_cases hlast : S.length + 1 = values.length
      · -- this settlement is the last one: the aggregate resolves now
        have hrem0 : st.remaining - 1 = 0 := by omega
        have hSlen' : (S ++ [i]).length = values.length := by
          simp only [List.length_append, List.length_cons, List.length_nil]
          omega
        have hdata : st.data.set i (some v) = values.map some := by
          apply List.ext_get?
          intro n
          by_cases hni : n = i
          · subst hni
            rw [List.get?_set_eq, hnotS n hiN hiS, List.get?_map, hv]
            simp
          · rw [List.get?_set_ne _ _ (fun hc => hni hc.symm), List.get?_map]
            by_cases hnN : n < values.length
            · have hfull := nodup_lt_full_mem hSnd' hSb' hSlen' n hnN
              rcases List.mem_append.mp hfull with hnS | hni'
              · rw [hS n hnS]
              · simp at hni'; exact absurd hni' hni
            · rw [List.get?_len_le (by omega), List.get?_len_le (by omega)]
              rfl
        rw [hstep]
        apply allEagerHandle_resolved_persist
        simp [hrem0, hres, resolveFirst, hdata]
      · -- more settlements remain pending afterwards
        rw [hstep]
        have hcard : (S ++ [i]).length = S.length + 1 := by simp
        apply ih (S ++ [i])
        · simp [hlen]
        · intro j hj
          rcases List.mem_append.mp hj with hj | hj
          · have hji : j ≠ i := fun hc => hiS (hc ▸ hj)
            rw [List.get?_set_ne _ _ (fun hc => hji hc.symm)]
            exact hS j hj
          · simp at hj
            subst hj
            rw [List.get?_set_eq, hnotS j hiN hiS, hv]
            rfl
        · intro j hjN hj
          have hjS : j ∉ S := fun hc => hj (List.mem_append.mpr (Or.inl hc))
          have hji : j ≠ i := fun hc => hj (by simp [hc])
          rw [List.get?_set_ne _ _ (fun hc => hji hc.symm)]
          exact hnotS j hjN hjS
        · simp only [hcard]; omega
        · simp [List.nodup_append, hSnd, hiS]
        · intro j hj
          rcases List.mem_append.mp hj with hj | hj
          · exact hSb j hj
          · simp at hj; omega
        · omega
        · have : st.remaining - 1 ≠ 0 := by omega
          simp [this, hres]
        · exact hnd.of_cons
        · intro i' hi'
          refine ⟨(hmem i' (List.mem_cons_of_mem i hi')).1, ?_⟩
          intro hc
          rcases List.mem_append.mp hc with hc | hc
          · exact (hmem i' (List.mem_cons_of_mem i hi')).2 hc
          · simp at hc
            subst hc
            exact (List.nodup_cons.mp hnd).1 hi'
        · intro j hjN
          rcases hcov j hjN with hj | hj
          · exact Or.inl (List.mem_append.mpr (Or.inl hj))
          · rcases List.mem_cons.mp hj with hj | hj
            · exact Or.inl (List.mem_append.mpr (Or.inr (by simp [hj])))
            · exact Or.inr hj

/-- C2: for every list of N tasks whose operations each resolve `Ok(v_i)`,
`all` in default mode with unbounded concurrency (the allEager path) resolves
`Ok([v_0, ..., v_{N-1}])` with the values in original index order, for every
settlement order of the N tasks — i.e. regardless of the order in which the
operations complete. -/
theorem all_default_unbounded_ok_original_order {α ε : Type}
    (values : List α) (order : List Nat)
    (hnd : order.Nodup) (hb : ∀ i ∈ order, i < values.length)
    (hcov : ∀ i, i < values.length → i ∈ order) :
    allEagerDefaultRun (values.map Result.ok : List (Result α ε)) order
      = some (.ok (values.map some)) := by
  by_cases hN : values.length = 0
  · have hvals : values = [] := List.length_eq_zero.mp hN
    subst hvals
    have hord : order = [] := by
      cases order with
      | nil => rfl
      | cons a l => exact absurd (hb a (List.mem_cons_self a l)) (by simp)
    subst hord
    rfl
  · unfold allEagerDefaultRun
    rw [if_neg (by simpa using hN)]
    apply allEager_default_all_ok_go values order []
    · simp
    · intro j hj; exact absurd hj (List.not_mem_nil j)
    · intro j hjN _
      rw [List.get?_eq_getElem?, List.length_map, List.getElem?_replicate, if_pos hjN]
    · simp
    · exact List.nodup_nil
    · intro j hj; exact absurd hj (List.not_mem_nil j)
    · simpa using Nat.pos_of_ne_zero hN
    · rfl
    · exact hnd
    · intro i hi; exact ⟨hb i hi, List.not_mem_nil i⟩
    · intro j hj; exact Or.inr (hcov j hj)

/-- Witness for C2: three Ok tasks settling in the order 2, 0, 1 resolve
`Ok([1, 2, 3])` in index order. -/
theorem all_default_unbounded_ok_original_order_witness :
    allEagerDefaultRun (([1, 2, 3] : List Nat).map Result.ok : List (Result Nat Nat)) [2, 0, 1]
      = some (.ok ([1, 2, 3].map some)) :=
  all_default_unbounded_ok_original_order [1, 2, 3] [2, 0, 1] (by decide) (by decide)
    (by decide)

/-- A list of distinct naturals below `N` that misses some `j₀ < N` has fewer
than `N` elements. -/
theorem nodup_lt_avoid_length_lt {S : List Nat} {N j₀ : Nat} (hnd : S.Nodup)
    (hb : ∀ i ∈ S, i < N) (hj : j₀ < N) (hjS : j₀ ∉ S) : S.length < N := by
  have hsub : S.toFinset ⊆ Finset.range N := fun x hx =>
    Finset.mem_range.mpr (hb x (List.mem_toFinset.mp hx))
  have hss : S.toFinset ⊂ Finset.range N :=
    (Finset.ssubset_iff_of_subset hsub).mpr ⟨j₀, Finset.mem_range.mpr hj,
      fun hc => hjS (List.mem_toFinset.mp hc)⟩
  have hcard := Finset.card_lt_card hss
  rwa [List.toFinset_card_of_nodup hnd, Finset.card_range] at hcard

/-- Once `Promise.all` has resolved, later settlements cannot change its
value. -/
theorem promiseAllHandle_resolved_persist (tasks : List ρ) (r : List (Option ρ)) :
    ∀ (order : List Nat) (st : PromiseAllState ρ), st.resolved = some r →
      (order.foldl (promiseAllHandle tasks) st).resolved = some r := by
  intro order
  induction order with
  | nil => intro st h; exact h
  | cons i rest ih =>
      intro st h
      rw [List.foldl_cons]
      apply ih
      unfold promiseAllHandle
      cases hg : tasks.get? i with
      | none => exact h
      | some res =>
          simp only
          split <;> simp [resolveFirst, h]

/-- Invariant induction for `Promise.all`: from a state in which the settled
set `S` has stored its Results, processing the remaining settlements (which
with `S` cover every task) resolves with all task Results in index order. -/
theorem promiseAll_settled_go {ρ : Type} (tasks : List ρ) :
    ∀ (rest : List Nat) (S : List Nat) (st : PromiseAllState ρ),
      st.data.length = tasks.length →
      (∀ j, j ∈ S → st.data.get? j = (tasks.get? j).map some) →
      (∀ j, j < tasks.length → j ∉ S → st.data.get? j = some none) →
      st.remaining = tasks.length - S.length →
      S.Nodup → (∀ j ∈ S, j < tasks.length) → S.length < tasks.length →
      st.resolved = none →
      rest.Nodup → (∀ i ∈ rest, i < tasks.length ∧ i ∉ S) →
      (∀ j, j < tasks.length → j ∈ S ∨ j ∈ rest) →
      (rest.foldl (promiseAllHandle tasks) st).resolved = some (tasks.map some) := by
  intro rest
  induction rest with
  | nil =>
      intro S st _ _ _ _ hSnd _ hSlt _ _ _ hcov
      exfalso
      have hge := covers_le_length hSnd (fun j hj => (hcov j hj).resolve_right (by simp))
      omega
  | cons i rest' ih =>
      intro S st hlen hS hnotS hrem hSnd hSb hSlt hres hnd hmem hcov
      obtain ⟨hiN, hiS⟩ := hmem i (List.mem_cons_self i rest')
      obtain ⟨r, hr⟩ := get?_is_some_of_lt hiN
      rw [List.foldl_cons]
      have hstep : promiseAllHandle tasks st i =
          { data := st.data.set i (some r), remaining := st.remaining - 1,
            resolved := if st.remaining - 1 = 0
              then resolveFirst st.resolved (st.data.set i (some r))
              else st.resolved } := by
        unfold promiseAllHandle
        rw [hr]
      have hSnd' : (S ++ [i]).Nodup := by simp [List.nodup_append, hSnd, hiS]
      have hSb' : ∀ j ∈ S ++ [i], j < tasks.length := by
        intro j hj
        rcases List.mem_append.mp hj with hj | hj
        · exact hSb j hj
        · simp at hj; omega
      by_cases hlast : S.length + 1 = tasks.length
      · have hrem0 : st.remaining - 1 = 0 := by omega
        have hSlen' : (S ++ [i]).length = tasks.length := by
          simp only [List.length_append, List.length_cons, List.length_nil]
          omega
        have hdata : st.data.set i (some r) = tasks.map some := by
          apply List.ext_get?
          intro n
          by_cases hni : n = i
          · subst hni
            rw [List.get?_set_eq, hnotS n hiN hiS, List.get?_map, hr]
            simp
          · rw [List.get?_set_ne _ _ (fun hc => hni hc.symm), List.get?_map]
            by_cases hnN : n < tasks.length
            · have hfull := nodup_lt_full_mem hSnd' hSb' hSlen' n hnN
              rcases List.mem_append.mp hfull with hnS | hni'
              · rw [hS n hnS]
              · simp at hni'; exact absurd hni' hni
            · rw [List.get?_len_le (by omega), List.get?_len_le (by omega)]
              rfl
        rw [hstep]
        apply promiseAllHandle_resolved_persist
        simp [hrem0, hres, resolveFirst, hdata]
      · rw [hstep]
        have hcard : (S ++ [i]).length = S.length + 1 := by simp
        apply ih (S ++ [i])
        · simp [hlen]
        · intro j hj
          rcases List.mem_append.mp hj with hj | hj
          · have hji : j ≠ i := fun hc => hiS (hc ▸ hj)
            rw [List.get?_set_ne _ _ (fun hc => hji hc.symm)]
            exact hS j hj
          · simp at hj
            subst hj
            rw [List.get?_set_eq, hnotS j hiN hiS, hr]
            rfl
        · intro j hjN hj
          have hjS : j ∉ S := fun hc => hj (List.mem_append.mpr (Or.inl hc))
          have hji : j ≠ i := fun hc => hj (by simp [hc])
          rw [List.get?_set_ne _ _ (fun hc => hji hc.symm)]
          exact hnotS j hjN hjS
        · simp only [hcard]; omega
        · exact hSnd'
        · exact hSb'
        · omega
        · have hne : st.remaining - 1 ≠ 0 := by omega
          simp [hne, hres]
        · exact hnd.of_cons
        · intro i' hi'
          refine ⟨(hmem i' (List.mem_cons_of_mem i hi')).1, ?_⟩
          intro hc
          rcases List.mem_append.mp hc with hc | hc
          · exact (hmem i' (List.mem_cons_of_mem i hi')).2 hc
          · simp at hc
            subst hc
            exact (List.nodup_cons.mp hnd).1 hi'
        · intro j hjN
          rcases hcov j hjN with hj | hj
          · exact Or.inl (List.mem_append.mpr (Or.inl hj))
          · rcases List.mem_cons.mp hj with hj | hj
            · exact Or.inl (List.mem_append.mpr (Or.inr (by simp [hj])))
            · exact Or.inr hj

/-- While some task `j₀` has not settled, `Promise.all` stays pending. -/
theorem promiseAll_pending_go {ρ : Type} (tasks : List ρ) (j₀ : Nat)
    (hj₀ : j₀ < tasks.length) :
    ∀ (rest : List Nat) (S : List Nat) (st : PromiseAllState ρ),
      st.remaining = tasks.length - S.length →
      S.Nodup → (∀ j ∈ S, j < tasks.length) → j₀ ∉ S →
      st.resolved = none →
      rest.Nodup → (∀ i ∈ rest, i < tasks.length ∧ i ∉ S) → j₀ ∉ rest →
      (rest.foldl (promiseAllHandle tasks) st).resolved = none := by
  intro rest
  induction rest with
  | nil => intro S st _ _ _ _ hres _ _ _; exact hres
  | cons i rest' ih =>
      intro S st hrem hSnd hSb hj₀S hres hnd hmem hj₀r
      obtain ⟨hiN, hiS⟩ := hmem i (List.mem_cons_self i rest')
      obtain ⟨r, hr⟩ := get?_is_some_of_lt hiN
      have hij₀ : i ≠ j₀ := fun hc => hj₀r (by simp [hc])
      have hSnd' : (S ++ [i]).Nodup := by simp [List.nodup_append, hSnd, hiS]
      have hSb' : ∀ j ∈ S ++ [i], j < tasks.length := by
        intro j hj
        rcases List.mem_append.mp hj with hj | hj
        · exact hSb j hj
        · simp at hj; omega
      have hlt : (S ++ [i]).length < tasks.length := by
        apply nodup_lt_avoid_length_lt hSnd' hSb' hj₀
        intro hc
        rcases List.mem_append.mp hc with hc | hc
        · exact hj₀S hc
        · simp at hc; exact hij₀ hc.symm
      have hrem' : st.remaining - 1 ≠ 0 := by
        simp only [List.length_append, List.length_cons, List.length_nil] at hlt
        omega
      rw [List.foldl_cons]
      have hstep : promiseAllHandle tasks st i =
          { data := st.data.set i (some r), remaining := st.remaining - 1,
            resolved := if st.remaining - 1 = 0
              then resolveFirst st.resolved (st.data.set i (some r))
              else st.resolved } := by
        unfold promiseAllHandle
        rw [hr]
      rw [hstep]
      apply ih (S ++ [i])
      · show st.remaining - 1 = tasks.length - (S ++ [i]).length
        simp only [List.length_append, List.length_cons, List.length_nil]
        omega
      · exact hSnd'
      · exact hSb'
      · intro hc
        rcases List.mem_append.mp hc with hc | hc
        · exact hj₀S hc
        · simp at hc; exact hij₀ hc.symm
      · simp [hrem', hres]
      · exact hnd.of_cons
      · intro i' hi'
        refine ⟨(hmem i' (List.mem_cons_of_mem i hi')).1, ?_⟩
        intro hc
        rcases List.mem_append.mp hc with hc | hc
        · exact (hmem i' (List.mem_cons_of_mem i hi')).2 hc
        · simp at hc
          subst hc
          exact (List.nodup_cons.mp hnd).1 hi'
      · intro hc
        exact hj₀r (List.mem_cons_of_mem i hc)

/-- Reading an embedded JS array is joining its `get?`. -/
theorem getHole_eq (l : List (Option σ)) (i : Nat) : getHole l i = (l.get? i).join := by
  unfold getHole
  cases l.get? i with
  | none => rfl
  | some o => cases o <;> rfl

/-- Length of a JS array after `arr[i] = x`. -/
theorem length_listSetExtend (l : List (Option σ)) (i : Nat) (x : σ) :
    (listSetExtend l i x).length = max l.length (i + 1) := by
  unfold listSetExtend
  split
  · simp only [List.length_set]; omega
  · simp only [List.length_append, List.length_replicate, List.length_cons,
      List.length_nil]
    omega

/-- Reading back the index just written. -/
theorem getHole_listSetExtend_self (l : List (Option σ)) (i : Nat) (x : σ) :
    getHole (listSetExtend l i x) i = some x := by
  rw [getHole_eq]
  unfold listSetExtend
  split
  · rename_i h
    obtain ⟨o, ho⟩ := get?_is_some_of_lt h
    rw [List.get?_set_eq, ho]
    rfl
  · rename_i h
    have hA : (l ++ List.replicate (i - l.length) (none : Option σ)).length = i := by
      simp only [List.length_append, List.length_replicate]
      omega
    generalize hAg : l ++ List.replicate (i - l.length) (none : Option σ) = A at hA ⊢
    rw [← hA, List.get?_concat_length]
    rfl

/-- Reading any other index after `arr[i] = x` gives what it gave before. -/
theorem getHole_listSetExtend_ne (l : List (Option σ)) (i j : Nat) (x : σ)
    (hne : j ≠ i) : getHole (listSetExtend l i x) j = getHole l j := by
  rw [getHole_eq, getHole_eq]
  unfold listSetExtend
  split
  · rw [List.get?_set_ne _ _ (fun hc => hne hc.symm)]
  · rename_i h
    have hA : (l ++ List.replicate (i - l.length) (none : Option σ)).length = i := by
      simp only [List.length_append, List.length_replicate]
      omega
    by_cases hj : j < l.length
    · rw [List.get?_append (show j < (l ++ List.replicate (i - l.length)
          (none : Option σ)).length by omega), List.get?_append hj]
    · rw [List.get?_len_le (show l.length ≤ j by omega)]
      by_cases hj2 : j < i
      · rw [List.get?_append (show j < (l ++ List.replicate (i - l.length)
            (none : Option σ)).length by omega),
          List.get?_append_right (show l.length ≤ j by omega),
          List.get?_eq_getElem?, List.getElem?_replicate, if_pos (by omega)]
        rfl
      · rw [List.get?_len_le (show (l ++ List.replicate (i - l.length)
            (none : Option σ) ++ [some x]).length ≤ j by
          simp only [List.length_append, List.length_replicate, List.length_cons,
            List.length_nil]
          omega)]

/-- An index holding a value is within the array's length. -/
theorem getHole_lt_of_eq_some {l : List (Option σ)} {j : Nat} {x : σ}
    (h : getHole l j = some x) : j < l.length := by
  rw [getHole_eq] at h
  cases hg : l.get? j with
  | none => rw [hg] at h; simp [Option.join] at h
  | some o => exact List.get?_eq_some.mp hg |>.1

/-- Length of the unstarted-index list. -/
theorem length_rangeFrom : ∀ (n s : Nat), (rangeFrom s n).length = n := by
  intro n
  induction n with
  | zero => intro s; rfl
  | succ n ih => intro s; simp [rangeFrom, ih (s + 1)]

/-- The unstarted-index list has no duplicates. -/
theorem nodup_rangeFrom : ∀ (n s : Nat), (rangeFrom s n).Nodup := by
  intro n
  induction n with
  | zero => intro s; exact List.nodup_nil
  | succ n ih =>
      intro s
      rw [show rangeFrom s (n + 1) = s :: rangeFrom (s + 1) n from rfl, List.nodup_cons]
      exact ⟨fun hc => by have := mem_rangeFrom.mp hc; omega, ih (s + 1)⟩

/-- The refill loop moves some prefix of the queue into the executing list. -/
theorem refillGo_rangeFrom (K : Nat) :
    ∀ (n s : Nat) (ex : List Nat), ∃ m, m ≤ n ∧
      refillGo K ex (rangeFrom s n) = (ex ++ rangeFrom s m, rangeFrom (s + m) (n - m)) := by
  intro n
  induction n with
  | zero => intro s ex; exact ⟨0, le_rfl, by simp [rangeFrom, refillGo]⟩
  | succ n ih =>
      intro s ex
      by_cases hK : ex.length < K
      · obtain ⟨m, hm, heq⟩ := ih (s + 1) (ex ++ [s])
        refine ⟨m + 1, by omega, ?_⟩
        rw [show rangeFrom s (n + 1) = s :: rangeFrom (s + 1) n from rfl]
        rw [show refillGo K ex (s :: rangeFrom (s + 1) n)
            = refillGo K (ex ++ [s]) (rangeFrom (s + 1) n) from by simp [refillGo, hK]]
        rw [heq]
        have h1 : s + 1 + m = s + (m + 1) := by omega
        have h2 : n - m = n + 1 - (m + 1) := by omega
        rw [h1, h2, show rangeFrom s (m + 1) = s :: rangeFrom (s + 1) m from rfl,
          List.append_assoc]
        rfl
      · refine ⟨0, by omega, ?_⟩
        rw [show rangeFrom s (n + 1) = s :: rangeFrom (s + 1) n from rfl]
        simp only [refillGo, hK, if_false]
        simp [rangeFrom]

/-- The refill loop never grows the executing list beyond the cap (or its
original length, when already above the cap). -/
theorem refillGo_length_le (K : Nat) : ∀ (q ex : List Nat),
    (refillGo K ex q).1.length ≤ max ex.length K := by
  intro q
  induction q with
  | nil => intro ex; simp [refillGo]
  | cons i rest ih =>
      intro ex
      by_cases hK : ex.length < K
      · have hrec := ih (ex ++ [i])
        simp only [refillGo, hK, if_true]
        simp only [List.length_append, List.length_cons, List.length_nil] at hrec
        omega
      · simp [refillGo, hK]

/-- Settling a batch only shrinks the executing list. -/
theorem foldl_erase_length_le : ∀ (batch l : List Nat),
    (batch.foldl (fun acc i => acc.erase i) l).length ≤ l.length := by
  intro batch
  induction batch with
  | nil => intro l; exact le_rfl
  | cons i rest ih =>
      intro l
      rw [List.foldl_cons]
      exact le_trans (ih (l.erase i)) (List.Sublist.length_le (l.erase_sublist i))

/-- The settled-mode bookkeeping handler removes the settled task from the
executing list, keeps the queue, and stores the task's Result. -/
theorem raceHandleSettled_executing (tasks : List (Result α ε))
    (st : RaceState (Result α ε)) (i : Nat) :
    (raceHandleSettled tasks st i).executing = st.executing.erase i := rfl

/-- The settled-mode bookkeeping handler does not touch the queue. -/
theorem raceHandleSettled_queue (tasks : List (Result α ε))
    (st : RaceState (Result α ε)) (i : Nat) :
    (raceHandleSettled tasks st i).queue = st.queue := rfl

/-- A settled batch, folded over the bookkeeping handler, erases exactly its
indices from the executing list and keeps the queue. -/
theorem raceHandleSettled_foldl_executing (tasks : List (Result α ε)) :
    ∀ (batch : List Nat) (st : RaceState (Result α ε)),
      (batch.foldl (raceHandleSettled tasks) st).executing
          = batch.foldl (fun acc i => acc.erase i) st.executing ∧
        (batch.foldl (raceHandleSettled tasks) st).queue = st.queue := by
  intro batch
  induction batch with
  | nil => intro st; exact ⟨rfl, rfl⟩
  | cons i rest ih =>
      intro st
      rw [List.foldl_cons, List.foldl_cons]
      exact (ih (raceHandleSettled tasks st i))

/-- One settled-mode settlement preserves the scheduler invariant, moving the
settled task from the executing list to the settled list. -/
theorem raceSettled_step_inv (tasks : List (Result α ε)) (S : List Nat)
    (st : RaceState (Result α ε)) (i : Nat) (hi : i ∈ st.executing)
    (hinv : RaceInv tasks S st) :
    RaceInv tasks (S ++ [i]) (raceHandleSettled tasks st i) := by
  obtain ⟨hq, hle, hexnd, hSnd, hdisj, hiff, hres, hreslen⟩ := hinv
  have hexpos : 0 < st.executing.length := List.length_pos_of_mem hi
  have hlen_er : (st.executing.erase i).length = st.executing.length - 1 :=
    List.length_erase_of_mem hi
  have hiN : i < tasks.length := by
    have := (hiff i).mp (Or.inl hi)
    omega
  obtain ⟨r, hr⟩ := get?_is_some_of_lt hiN
  have hhandle : raceHandleSettled tasks st i =
      { st with executing := st.executing.erase i,
                results := listSetExtend st.results i r } := by
    unfold raceHandleSettled
    rw [hr]
  have hstarted : (S ++ [i]).length + (st.executing.erase i).length
      = S.length + st.executing.length := by
    simp only [List.length_append, List.length_cons, List.length_nil, hlen_er]
    omega
  rw [hhandle]
  refine ⟨?_, ?_, ?_, ?_, ?_, ?_, ?_, ?_⟩
  · show st.queue = _
    rw [hstarted]
    exact hq
  · show (S ++ [i]).length + (st.executing.erase i).length ≤ tasks.length
    omega
  · exact hexnd.erase i
  · simp [List.nodup_append, hSnd, hdisj i hi]
  · intro x hx
    have hx' := (hexnd.mem_erase_iff).mp hx
    intro hc
    rcases List.mem_append.mp hc with hc | hc
    · exact hdisj x hx'.2 hc
    · simp at hc
      exact hx'.1 hc
  · intro x
    rw [hstarted]
    constructor
    · intro hx
      rcases hx with hx | hx
      · exact (hiff x).mp (Or.inl ((hexnd.mem_erase_iff).mp hx).2)
      · rcases List.mem_append.mp hx with hx | hx
        · exact (hiff x).mp (Or.inr hx)
        · simp at hx
          subst hx
          exact (hiff x).mp (Or.inl hi)
    · intro hx
      rcases (hiff x).mpr hx with hx' | hx'
      · by_cases hxi : x = i
        · exact Or.inr (List.mem_append.mpr (Or.inr (by simp [hxi])))
        · exact Or.inl ((hexnd.mem_erase_iff).mpr ⟨hxi, hx'⟩)
      · exact Or.inr (List.mem_append.mpr (Or.inl hx'))
  · intro j
    by_cases hji : j = i
    · subst hji
      rw [getHole_listSetExtend_self, if_pos (List.mem_append.mpr (Or.inr (by simp))), hr]
    · rw [getHole_listSetExtend_ne _ _ _ _ hji, hres j]
      by_cases hjS : j ∈ S
      · rw [if_pos hjS, if_pos (List.mem_append.mpr (Or.inl hjS))]
      · rw [if_neg hjS, if_neg]
        intro hc
        rcases List.mem_append.mp hc with hc | hc
        · exact hjS hc
        · simp at hc
          exact hji hc
  · show (listSetExtend st.results i r).length ≤ tasks.length
    rw [length_listSetExtend]
    omega

/-- A batch of settled-mode settlements preserves the scheduler invariant. -/
theorem raceSettled_batch_inv (tasks : List (Result α ε)) :
    ∀ (batch : List Nat) (S : List Nat) (st : RaceState (Result α ε)),
      RaceInv tasks S st → batch.Nodup → (∀ i ∈ batch, i ∈ st.executing) →
      RaceInv tasks (S ++ batch) (batch.foldl (raceHandleSettled tasks) st) := by
  intro batch
  induction batch with
  | nil => intro S st hinv _ _; simpa using hinv
  | cons i rest ih =>
      intro S st hinv hnd hmem
      rw [List.foldl_cons, show S ++ i :: rest = (S ++ [i]) ++ rest by simp]
      have hstep := raceSettled_step_inv tasks S st i (hmem i (List.mem_cons_self i rest)) hinv
      apply ih (S ++ [i]) _ hstep hnd.of_cons
      intro i' hi'
      rw [raceHandleSettled_executing]
      have hexnd := hinv.2.2.1
      refine (hexnd.mem_erase_iff).mpr ⟨?_, hmem i' (List.mem_cons_of_mem i hi')⟩
      intro hc
      exact (List.nodup_cons.mp hnd).1 (hc ▸ hi')

/-- The refill loop preserves the scheduler invariant: it moves a prefix of
the queue (the next unstarted indices, in order) into the executing list. -/
theorem refill_inv (tasks : List (Result α ε)) (K : Nat) (S : List Nat)
    (st : RaceState (Result α ε)) (hinv : RaceInv tasks S st) :
    RaceInv tasks S (refill K st) := by
  obtain ⟨hq, hle, hexnd, hSnd, hdisj, hiff, hres, hreslen⟩ := hinv
  obtain ⟨m, hm, heq⟩ := refillGo_rangeFrom K
    (tasks.length - (S.length + st.executing.length))
    (S.length + st.executing.length) st.executing
  have hrefill : refill K st =
      { executing := st.executing
          ++ rangeFrom (S.length + st.executing.length) m,
        queue := rangeFrom (S.length + st.executing.length + m)
          (tasks.length - (S.length + st.executing.length) - m),
        results := st.results } := by
    unfold refill
    rw [hq, heq]
  have hstarted : S.length + (st.executing
      ++ rangeFrom (S.length + st.executing.length) m).length
      = S.length + st.executing.length + m := by
    simp only [List.length_append, length_rangeFrom]
    omega
  rw [hrefill]
  refine ⟨?_, ?_, ?_, ?_, ?_, ?_, ?_, ?_⟩
  · show rangeFrom _ _ = _
    rw [hstarted]
    congr 1
    omega
  · show S.length + (st.executing ++ _).length ≤ tasks.length
    omega
  · rw [List.nodup_append]
    refine ⟨hexnd, nodup_rangeFrom m _, ?_⟩
    intro x hx hc
    have hx' := (hiff x).mp (Or.inl hx)
    have := mem_rangeFrom.mp hc
    omega
  · exact hSnd
  · intro x hx
    rcases List.mem_append.mp hx with hx | hx
    · exact hdisj x hx
    · intro hc
      have hx' := mem_rangeFrom.mp hx
      have := (hiff x).mp (Or.inr hc)
      omega
  · intro x
    rw [hstarted]
    constructor
    · intro hx
      rcases hx with hx | hx
      · rcases List.mem_append.mp hx with hx | hx
        · have := (hiff x).mp (Or.inl hx)
          omega
        · have := mem_rangeFrom.mp hx
          omega
      · have := (hiff x).mp (Or.inr hx)
        omega
    · intro hx
      by_cases hxs : x < S.length + st.executing.length
      · rcases (hiff x).mpr hxs with hx' | hx'
        · exact Or.inl (List.mem_append.mpr (Or.inl hx'))
        · exact Or.inr hx'
      · exact Or.inl (List.mem_append.mpr (Or.inr (mem_rangeFrom.mpr (by omega))))
  · exact hres
  · exact hreslen

/-- A joined optional holding a value comes from a doubly-wrapped value. -/
theorem join_eq_some {o : Option (Option σ)} {x : σ} (h : o.join = some x) :
    o = some (some x) := by
  cases o with
  | none => simp [Option.join] at h
  | some y =>
      cases y with
      | none => simp [Option.join] at h
      | some z => simp [Option.join] at h; rw [h]

/-- When the scheduler has drained (nothing executing, nothing queued), every
task has settled. -/
theorem raceInv_finished_covers (tasks : List (Result α ε)) (S : List Nat)
    (st : RaceState (Result α ε)) (hinv : RaceInv tasks S st)
    (hex : st.executing = []) (hq : st.queue = []) :
    ∀ j, j < tasks.length → j ∈ S := by
  obtain ⟨hqeq, hle, _, _, _, hiff, _, _⟩ := hinv
  rw [hex] at hqeq hle hiff
  simp only [List.length_nil] at hqeq hle hiff
  have hq0 : tasks.length - (S.length + 0) = 0 := by
    have hlen := congrArg List.length hqeq
    rw [hq, length_rangeFrom] at hlen
    simp at hlen
    omega
  intro j hj
  have hjlt : j < S.length + 0 := by omega
  rcases (hiff j).mpr hjlt with hc | hc
  · exact absurd hc (List.not_mem_nil j)
  · exact hc

/-- When the scheduler has drained, the results array is exactly the tasks'
Results, in index order. -/
theorem raceInv_finished_results (tasks : List (Result α ε)) (S : List Nat)
    (st : RaceState (Result α ε)) (hinv : RaceInv tasks S st)
    (hex : st.executing = []) (hq : st.queue = []) :
    st.results = tasks.map some := by
  have hcov := raceInv_finished_covers tasks S st hinv hex hq
  obtain ⟨_, _, _, _, _, _, hres, hreslen⟩ := hinv
  apply List.ext_get?
  intro n
  by_cases hn : n < tasks.length
  · obtain ⟨r, hr⟩ := get?_is_some_of_lt hn
    have h1 := hres n
    rw [if_pos (hcov n hn), hr, getHole_eq] at h1
    rw [join_eq_some h1, List.get?_map, hr]
    rfl
  · rw [List.get?_len_le (show st.results.length ≤ n by omega),
      List.get?_len_le (show (tasks.map some).length ≤ n by simp; omega)]

/-- The settled-mode race driver, run on a valid schedule that settles every
remaining task, resolves with all task Results in index order. -/
theorem raceSettledLoop_complete (tasks : List (Result α ε)) (K : Nat) :
    ∀ (schedule : List (List Nat)) (S : List Nat) (st : RaceState (Result α ε)),
      RaceInv tasks S st →
      raceValidGo K (st.executing, st.queue) schedule = true →
      (∀ j, j < tasks.length → j ∈ S ∨ j ∈ schedule.join) →
      ¬(st.executing = [] ∧ st.queue = []) →
      raceSettledLoop tasks K st schedule = some (tasks.map some) := by
  intro schedule
  induction schedule with
  | nil =>
      intro S st hinv hvalid hcov hnf
      exfalso
      obtain ⟨hq, hle, hexnd, hSnd, hdisj, hiff, _, _⟩ := hinv
      have hScov : ∀ j, j < tasks.length → j ∈ S := fun j hj =>
        (hcov j hj).resolve_right (by simp)
      have hSlen := covers_le_length hSnd hScov
      have hex0 : st.executing.length = 0 := by omega
      have hexnil : st.executing = [] := List.length_eq_zero.mp hex0
      have hqnil : st.queue = [] := by
        rw [hq, hex0, show tasks.length - (S.length + 0) = 0 by omega]
        rfl
      exact hnf ⟨hexnil, hqnil⟩
  | cons batch rest ih =>
      intro S st hinv hvalid hcov hnf
      unfold raceValidGo at hvalid
      simp only [Bool.and_eq_true, decide_eq_true_eq] at hvalid
      obtain ⟨⟨⟨hbne, hbnd⟩, hbmem⟩, hvrest⟩ := hvalid
      obtain ⟨w, bs, rfl⟩ : ∃ w bs, batch = w :: bs := by
        cases batch with
        | nil => exact absurd rfl hbne
        | cons w bs => exact ⟨w, bs, rfl⟩
      have hinvR := refill_inv tasks K S st hinv
      have hbmem' : ∀ i ∈ w :: bs, i ∈ (refill K st).executing := by
        intro i hi
        exact hbmem i hi
      have hinv' := raceSettled_batch_inv tasks (w :: bs) S (refill K st) hinvR hbnd hbmem'
      have hfold := raceHandleSettled_foldl_executing tasks (w :: bs) (refill K st)
      have hloopeq : raceSettledLoop tasks K st ((w :: bs) :: rest)
          = (if ((w :: bs).foldl (raceHandleSettled tasks) (refill K st)).executing = []
                ∧ ((w :: bs).foldl (raceHandleSettled tasks) (refill K st)).queue = []
             then some ((w :: bs).foldl (raceHandleSettled tasks) (refill K st)).results
             else raceSettledLoop tasks K
               ((w :: bs).foldl (raceHandleSettled tasks) (refill K st)) rest) := by
        simp only [raceSettledLoop]
      by_cases hfin : ((w :: bs).foldl (raceHandleSettled tasks) (refill K st)).executing = []
          ∧ ((w :: bs).foldl (raceHandleSettled tasks) (refill K st)).queue = []
      · rw [hloopeq, if_pos hfin]
        rw [raceInv_finished_results tasks (S ++ (w :: bs)) _ hinv' hfin.1 hfin.2]
      · rw [hloopeq, if_neg hfin]
        apply ih (S ++ (w :: bs)) _ hinv' _ _ hfin
        · rw [hfold.1, hfold.2]
          exact hvrest
        · intro j hj
          rcases hcov j hj with hj' | hj'
          · exact Or.inl (List.mem_append.mpr (Or.inl hj'))
          · rcases List.mem_append.mp (show j ∈ (w :: bs) ++ rest.join by simpa using hj')
                with hj' | hj'
            · exact Or.inl (List.mem_append.mpr (Or.inr hj'))
            · exact Or.inr hj'

/-- The settled-mode race driver stays pending while some task `j₀` has not
settled: it never short-circuits and waits for every task. -/
theorem raceSettledLoop_pending (tasks : List (Result α ε)) (K : Nat) (j₀ : Nat)
    (hj₀ : j₀ < tasks.length) :
    ∀ (schedule : List (List Nat)) (S : List Nat) (st : RaceState (Result α ε)),
      RaceInv tasks S st →
      raceValidGo K (st.executing, st.queue) schedule = true →
      j₀ ∉ S → j₀ ∉ schedule.join →
      raceSettledLoop tasks K st schedule = none := by
  intro schedule
  induction schedule with
  | nil => intro S st _ _ _ _; rfl
  | cons batch rest ih =>
      intro S st hinv hvalid hj₀S hj₀j
      unfold raceValidGo at hvalid
      simp only [Bool.and_eq_true, decide_eq_true_eq] at hvalid
      obtain ⟨⟨⟨hbne, hbnd⟩, hbmem⟩, hvrest⟩ := hvalid
      obtain ⟨w, bs, rfl⟩ : ∃ w bs, batch = w :: bs := by
        cases batch with
        | nil => exact absurd rfl hbne
        | cons w bs => exact ⟨w, bs, rfl⟩
      have hj₀j' : j₀ ∉ (w :: bs) ++ rest.join := fun hc => hj₀j (by simpa using hc)
      have hj₀b : j₀ ∉ w :: bs := fun hc => hj₀j' (List.mem_append.mpr (Or.inl hc))
      have hj₀r : j₀ ∉ rest.join := fun hc => hj₀j' (List.mem_append.mpr (Or.inr hc))
      have hinvR := refill_inv tasks K S st hinv
      have hbmem' : ∀ i ∈ w :: bs, i ∈ (refill K st).executing := fun i hi => hbmem i hi
      have hinv' := raceSettled_batch_inv tasks (w :: bs) S (refill K st) hinvR hbnd hbmem'
      have hfold := raceHandleSettled_foldl_executing tasks (w :: bs) (refill K st)
      have hloopeq : raceSettledLoop tasks K st ((w :: bs) :: rest)
          = (if ((w :: bs).foldl (raceHandleSettled tasks) (refill K st)).executing = []
                ∧ ((w :: bs).foldl (raceHandleSettled tasks) (refill K st)).queue = []
             then some ((w :: bs).foldl (raceHandleSettled tasks) (refill K st)).results
             else raceSettledLoop tasks K
               ((w :: bs).foldl (raceHandleSettled tasks) (refill K st)) rest) := by
        simp only [raceSettledLoop]
      by_cases hfin : ((w :: bs).foldl (raceHandleSettled tasks) (refill K st)).executing = []
          ∧ ((w :: bs).foldl (raceHandleSettled tasks) (refill K st)).queue = []
      · exfalso
        have hcov := raceInv_finished_covers tasks (S ++ (w :: bs)) _ hinv' hfin.1 hfin.2
        rcases List.mem_append.mp (hcov j₀ hj₀) with hc | hc
        · exact hj₀S hc
        · exact hj₀b hc
      · rw [hloopeq, if_neg hfin]
        apply ih (S ++ (w :: bs)) _ hinv' _ _ hj₀r
        · rw [hfold.1, hfold.2]
          exact hvrest
        · intro hc
          rcases List.mem_append.mp hc with hc | hc
          · exact hj₀S hc
          · exact hj₀b hc

/-- C3: the aggregator `all` in settled mode never short-circuits.  For the
eager path (and the lazy unbounded path, which delegates to it),
`Promise.all` resolves exactly when every task has settled, with an array of
length N whose entry j is the exact Result produced by task j, for every
settlement order; while any task is unsettled it stays pending.  For the lazy
path with a numeric concurrency, the race driver likewise returns the exact
Result of every task in index order once every task has settled, and stays
pending while any task is unsettled — independent of completion order. -/
theorem all_settled_never_short_circuits :
    (∀ (tasks : List (Result α ε)) (order : List Nat),
       order.Nodup → (∀ i ∈ order, i < tasks.length) →
       (∀ i, i < tasks.length → i ∈ order) →
       promiseAllRun tasks order = some (tasks.map some)) ∧
    (∀ (tasks : List (Result α ε)) (order : List Nat) (j : Nat),
       order.Nodup → (∀ i ∈ order, i < tasks.length) →
       j < tasks.length → j ∉ order →
       promiseAllRun tasks order = none) ∧
    (∀ (tasks : List (Result α ε)) (K : Nat) (schedule : List (List Nat)),
       0 < tasks.length →
       raceValid tasks K schedule = true →
       (∀ i, i < tasks.length → i ∈ schedule.join) →
       raceSettledRun tasks K schedule = some (tasks.map some)) ∧
    (∀ (tasks : List (Result α ε)) (K : Nat) (schedule : List (List Nat)) (j : Nat),
       raceValid tasks K schedule = true →
       j < tasks.length → j ∉ schedule.join →
       raceSettledRun tasks K schedule = none) := by
  have hinv0 : ∀ (tasks : List (Result α ε)), RaceInv tasks [] (raceInit tasks) := by
    intro tasks
    refine ⟨?_, ?_, ?_, ?_, ?_, ?_, ?_, ?_⟩ <;>
      simp [raceInit, getHole]
  refine ⟨?_, ?_, ?_, ?_⟩
  · intro tasks order hnd hb hcov
    by_cases hN : tasks.length = 0
    · have htasks : tasks = [] := List.length_eq_zero.mp hN
      subst htasks
      have hord : order = [] := by
        cases order with
        | nil => rfl
        | cons a l => exact absurd (hb a (List.mem_cons_self a l)) (by simp)
      subst hord
      rfl
    · unfold promiseAllRun
      rw [if_neg hN]
      apply promiseAll_settled_go tasks order []
      · simp
      · intro j hj; exact absurd hj (List.not_mem_nil j)
      · intro j hjN _
        rw [List.get?_eq_getElem?, List.getElem?_replicate, if_pos hjN]
      · simp
      · exact List.nodup_nil
      · intro j hj; exact absurd hj (List.not_mem_nil j)
      · simpa using Nat.pos_of_ne_zero hN
      · rfl
      · exact hnd
      · intro i hi; exact ⟨hb i hi, List.not_mem_nil i⟩
      · intro j hj; exact Or.inr (hcov j hj)
  · intro tasks order j hnd hb hj hjo
    unfold promiseAllRun
    rw [if_neg (by omega)]
    apply promiseAll_pending_go tasks j hj order []
    · simp
    · exact List.nodup_nil
    · intro i hi; exact absurd hi (List.not_mem_nil i)
    · exact List.not_mem_nil j
    · rfl
    · exact hnd
    · intro i hi; exact ⟨hb i hi, List.not_mem_nil i⟩
    · exact hjo
  · intro tasks K schedule hN hvalid hcov
    apply raceSettledLoop_complete tasks K schedule [] (raceInit tasks) (hinv0 tasks) hvalid
    · intro j hj; exact Or.inr (hcov j hj)
    · intro hfin
      have hlen := congrArg List.length hfin.2
      simp only [raceInit, length_rangeFrom, List.length_nil] at hlen
      omega
  · intro tasks K schedule j hvalid hj hjs
    exact raceSettledLoop_pending tasks K j hj schedule [] (raceInit tasks) (hinv0 tasks)
      hvalid (List.not_mem_nil j) hjs

/-- Witness for C3: three settled tasks in settlement order 2, 0, 1 yield the
exact per-task Results in index order; a task that never settles leaves the
aggregate pending; the bounded race driver behaves the same way. -/
theorem all_settled_never_short_circuits_witness :
    promiseAllRun [Result.ok (1 : Nat), Result.error (2 : Nat), Result.ok 3] [2, 0, 1]
        = some ([Result.ok 1, Result.error 2, Result.ok 3].map some) ∧
      promiseAllRun [Result.ok (1 : Nat), Result.error (2 : Nat)] [0] = none ∧
      raceSettledRun [Result.ok (1 : Nat), Result.error (2 : Nat)] 1 [[0], [1]]
        = some ([Result.ok 1, Result.error 2].map some) ∧
      raceSettledRun [Result.ok (1 : Nat), Result.error (2 : Nat)] 1 [[0]] = none :=
  ⟨all_settled_never_short_circuits.1
      [Result.ok 1, Result.error 2, Result.ok 3] [2, 0, 1]
      (by decide) (by decide) (by decide),
    all_settled_never_short_circuits.2.1
      [Result.ok 1, Result.error 2] [0] 1 (by decide) (by decide) (by decide) (by decide),
    all_settled_never_short_circuits.2.2.1
      [Result.ok 1, Result.error 2] 1 [[0], [1]] (by decide) (by decide) (by decide),
    all_settled_never_short_circuits.2.2.2
      [Result.ok 1, Result.error 2] 1 [[0]] 1 (by decide) (by decide) (by decide)⟩

/-- Starting a task never flips the `done` flag. -/
theorem runNext_done (total : Nat) (st : PoolState σ ω) :
    (runNext total st).done = st.done := by
  unfold runNext
  split
  · rfl
  · split <;> rfl

/-- Starting a task never touches the settled bookkeeping. -/
theorem runNext_settled (total : Nat) (st : PoolState σ ω) :
    (runNext total st).settled = st.settled := by
  unfold runNext
  split
  · rfl
  · split <;> rfl

/-- The initial worker loop never flips the `done` flag. -/
theorem nat_repeat_runNext_done (total : Nat) :
    ∀ (m : Nat) (st : PoolState σ ω), (Nat.repeat (runNext total) m st).done = st.done := by
  intro m
  induction m with
  | zero => intro st; rfl
  | succ m ih =>
      intro st
      show (runNext total (Nat.repeat (runNext total) m st)).done = st.done
      rw [runNext_done, ih]

/-- The initial worker loop never touches the settled bookkeeping. -/
theorem nat_repeat_runNext_settled (total : Nat) :
    ∀ (m : Nat) (st : PoolState σ ω), (Nat.repeat (runNext total) m st).settled = st.settled := by
  intro m
  induction m with
  | zero => intro st; rfl
  | succ m ih =>
      intro st
      show (runNext total (Nat.repeat (runNext total) m st)).settled = st.settled
      rw [runNext_settled, ih]

/-- A `runNext()` while the aggregate is not done and unscheduled tasks remain
starts exactly one task. -/
theorem runNext_nextIndex_of_not_done (total : Nat) (st : PoolState σ ω)
    (hdone : st.done = false) (hlt : st.nextIndex < total) :
    (runNext total st).nextIndex = st.nextIndex + 1 := by
  unfold runNext
  rw [hdone]
  simp [hlt]

/-- While tasks remain unscheduled and the aggregate is not done, each
`runNext()` of the initial worker loop starts exactly one task. -/
theorem nat_repeat_runNext_nextIndex (total : Nat) :
    ∀ (m : Nat) (st : PoolState σ ω), st.done = false → st.nextIndex + m ≤ total →
      (Nat.repeat (runNext total) m st).nextIndex = st.nextIndex + m := by
  intro m
  induction m with
  | zero => intro st _ _; rfl
  | succ m ih =>
      intro st hdone hle
      show (runNext total (Nat.repeat (runNext total) m st)).nextIndex = st.nextIndex + (m + 1)
      have h1 := ih st hdone (by omega)
      have hdone' : (Nat.repeat (runNext total) m st).done = false := by
        rw [nat_repeat_runNext_done, hdone]
      have hlt : (Nat.repeat (runNext total) m st).nextIndex < total := by
        rw [h1]; omega
      rw [runNext_nextIndex_of_not_done total _ hdone' hlt, h1]
      omega

/-- The pool variant initially schedules exactly `min(concurrency, N)` tasks. -/
theorem poolStartDefault_nextIndex (tasks : List (Result α ε)) (K : Nat) :
    (poolStartDefault tasks K).nextIndex = min K tasks.length := by
  unfold poolStartDefault
  rw [nat_repeat_runNext_nextIndex tasks.length (min K tasks.length)
    (poolInitDefault tasks) rfl (show (poolInitDefault tasks).nextIndex
      + min K tasks.length ≤ tasks.length from by
        show 0 + min K tasks.length ≤ tasks.length
        omega)]
  show 0 + min K tasks.length = min K tasks.length
  omega

/-- The settlement callback in default mode, evaluated on an Err task. -/
theorem poolSettleDefault_error_eq (tasks : List (Result α ε))
    (st : PoolState α (Result (List (Option α)) ε)) (i : Nat) (e : ε)
    (hr : tasks.get? i = some (Result.error e)) :
    poolSettleDefault tasks st i
      = resolveOuter { st with settled := st.settled ++ [i] } (.error e) := by
  unfold poolSettleDefault
  rw [hr]

/-- The settlement callback in default mode, evaluated on an Ok task. -/
theorem poolSettleDefault_ok_eq (tasks : List (Result α ε))
    (st : PoolState α (Result (List (Option α)) ε)) (i : Nat) (v : α)
    (hr : tasks.get? i = some (Result.ok v)) :
    poolSettleDefault tasks st i =
      (if st.remaining - 1 = 0
       then resolveOuter { st with
              settled := st.settled ++ [i]
              results := st.results.set i (some v)
              remaining := st.remaining - 1 }
            (.ok (st.results.set i (some v)))
       else runNext tasks.length { st with
              settled := st.settled ++ [i]
              results := st.results.set i (some v)
              remaining := st.remaining - 1 }) := by
  unfold poolSettleDefault
  rw [hr]

/-- Every settlement callback appends its task to the settled bookkeeping. -/
theorem poolSettleDefault_settled (tasks : List (Result α ε))
    (st : PoolState α (Result (List (Option α)) ε)) (i : Nat) :
    (poolSettleDefault tasks st i).settled = st.settled ++ [i] := by
  cases hg : tasks.get? i with
  | none => unfold poolSettleDefault; rw [hg]
  | some r =>
      cases r with
      | error e => rw [poolSettleDefault_error_eq tasks st i e hg]; rfl
      | ok v =>
          rw [poolSettleDefault_ok_eq tasks st i v hg]
          split
          · rfl
          · rw [runNext_settled]

/-- A settlement callback starts at most one new task. -/
theorem poolSettleDefault_nextIndex_le (tasks : List (Result α ε))
    (st : PoolState α (Result (List (Option α)) ε)) (i : Nat) :
    (poolSettleDefault tasks st i).nextIndex ≤ st.nextIndex + 1 := by
  cases hg : tasks.get? i with
  | none =>
      unfold poolSettleDefault
      rw [hg]
      show st.nextIndex ≤ st.nextIndex + 1
      omega
  | some r =>
      cases r with
      | error e =>
          rw [poolSettleDefault_error_eq tasks st i e hg]
          show st.nextIndex ≤ st.nextIndex + 1
          omega
      | ok v =>
          rw [poolSettleDefault_ok_eq tasks st i v hg]
          split
          · show st.nextIndex ≤ st.nextIndex + 1
            omega
          · unfold runNext
            split
            · show st.nextIndex ≤ st.nextIndex + 1
              omega
            · split
              · show st.nextIndex + 1 ≤ st.nextIndex + 1
                omega
              · show st.nextIndex ≤ st.nextIndex + 1
                omega

/-- The in-flight count never grows across a settlement: the settled list
gains one entry while at most one new task starts. -/
theorem pool_inFlight_foldl_le (tasks : List (Result α ε)) (K : Nat) :
    ∀ (p : List Nat) (st : PoolState α (Result (List (Option α)) ε)),
      poolInFlight st ≤ K →
      poolInFlight (p.foldl (poolSettleDefault tasks) st) ≤ K := by
  intro p
  induction p with
  | nil => intro st h; exact h
  | cons i rest ih =>
      intro st h
      rw [List.foldl_cons]
      apply ih
      unfold poolInFlight at h ⊢
      have hset := poolSettleDefault_settled tasks st i
      have hnext := poolSettleDefault_nextIndex_le tasks st i
      rw [hset]
      simp only [List.length_append, List.length_cons, List.length_nil]
      omega

/-- The default-mode bookkeeping handler of the race driver only shrinks the
executing set. -/
theorem raceHandleDefault_executing_le (tasks : List (Result α ε))
    (st : RaceState α) (i : Nat) :
    (raceHandleDefault tasks st i).executing.length ≤ st.executing.length := by
  show (st.executing.erase i).length ≤ st.executing.length
  exact List.Sublist.length_le (st.executing.erase_sublist i)

/-- A whole batch of settlements only shrinks the executing set. -/
theorem raceHandleDefault_foldl_executing_le (tasks : List (Result α ε)) :
    ∀ (batch : List Nat) (st : RaceState α),
      (batch.foldl (raceHandleDefault tasks) st).executing.length
        ≤ st.executing.length := by
  intro batch
  induction batch with
  | nil => intro st; exact le_rfl
  | cons i rest ih =>
      intro st
      rw [List.foldl_cons]
      exact le_trans (ih _) (raceHandleDefault_executing_le tasks st i)

/-- From any state within the cap, every race-driver iteration keeps the
number of executing tasks at or below the cap. -/
theorem raceExecBoundOk_of_le (tasks : List (Result α ε)) (K : Nat) :
    ∀ (schedule : List (List Nat)) (st : RaceState α), st.executing.length ≤ K →
      raceExecBoundOk tasks K st schedule = true := by
  intro schedule
  induction schedule with
  | nil => intro st _; rfl
  | cons batch rest ih =>
      intro st hle
      have hrefill : (refill K st).executing.length ≤ K := by
        show (refillGo K st.executing st.queue).1.length ≤ K
        have := refillGo_length_le K st.queue st.executing
        omega
      unfold raceExecBoundOk
      simp only [Bool.and_eq_true, decide_eq_true_eq]
      exact ⟨hrefill, ih _ (le_trans
        (raceHandleDefault_foldl_executing_le tasks batch (refill K st)) hrefill)⟩

/-- C4: for lazy inputs under a positive concurrency cap K: the pool variant
initially schedules min(K, N) tasks; along any valid settlement schedule the
number of started-but-not-yet-completed tasks never exceeds K; whenever a
settlement completes without concluding the aggregate and unscheduled tasks
remain, the next task is started immediately (within the settlement callback);
and in the race-based variant the executing set likewise never exceeds K at
any driver iteration, batches only ever shrinking it. -/
theorem all_bounded_concurrency_cap :
    (∀ (tasks : List (Result α ε)) (K : Nat),
       (poolStartDefault tasks K).nextIndex = min K tasks.length) ∧
    (∀ (tasks : List (Result α ε)) (K : Nat) (p : List Nat),
       poolValidDefault tasks (poolStartDefault tasks K) p = true →
       poolInFlight (p.foldl (poolSettleDefault tasks) (poolStartDefault tasks K)) ≤ K) ∧
    (∀ (tasks : List (Result α ε)) (st : PoolState α (Result (List (Option α)) ε))
       (i : Nat), i < tasks.length → (poolSettleDefault tasks st i).done = false →
       st.nextIndex < tasks.length →
       (poolSettleDefault tasks st i).nextIndex = st.nextIndex + 1) ∧
    (∀ (tasks : List (Result α ε)) (K : Nat) (schedule : List (List Nat)),
       raceExecBoundOk tasks K (raceInit tasks) schedule = true) ∧
    (∀ (tasks : List (Result α ε)) (st : RaceState α) (i : Nat),
       (raceHandleDefault tasks st i).executing.length ≤ st.executing.length) := by
  refine ⟨?_, ?_, ?_, ?_, ?_⟩
  · intro tasks K
    exact poolStartDefault_nextIndex tasks K
  · intro tasks K p _
    apply pool_inFlight_foldl_le
    unfold poolInFlight
    rw [poolStartDefault_nextIndex,
      show (poolStartDefault tasks K).settled = [] from by
        unfold poolStartDefault
        rw [nat_repeat_runNext_settled]
        rfl]
    simp only [List.length_nil]
    omega
  · intro tasks st i hiN hnd hnext
    obtain ⟨r, hr⟩ := get?_is_some_of_lt hiN
    cases r with
    | error e =>
        rw [poolSettleDefault_error_eq tasks st i e hr] at hnd
        simp [resolveOuter] at hnd
    | ok v =>
        rw [poolSettleDefault_ok_eq tasks st i v hr] at hnd ⊢
        split at hnd
        · simp [resolveOuter] at hnd
        · rename_i hc
          rw [runNext_done] at hnd
          have hdone : st.done = false := hnd
          rw [if_neg hc, runNext_nextIndex_of_not_done]
          · exact hdone
          · exact hnext
  · intro tasks K schedule
    apply raceExecBoundOk_of_le
    show ([] : List Nat).length ≤ K
    simp
  · intro tasks st i
    exact raceHandleDefault_executing_le tasks st i

/-- Witness for C4: three Ok tasks at cap 2 — two start initially, the
in-flight count stays within 2 along the full run, the first completion starts
the third task at once, and the race driver's executing set stays within its
cap. -/
theorem all_bounded_concurrency_cap_witness :
    (poolStartDefault ([Result.ok 1, Result.ok 2, Result.ok 3] : List (Result Nat Nat))
        2).nextIndex = min 2 3 ∧
      poolInFlight (([0, 1, 2] : List Nat).foldl
        (poolSettleDefault ([Result.ok 1, Result.ok 2, Result.ok 3] : List (Result Nat Nat)))
        (poolStartDefault ([Result.ok 1, Result.ok 2, Result.ok 3] : List (Result Nat Nat))
          2)) ≤ 2 ∧
      (poolSettleDefault ([Result.ok 1, Result.ok 2, Result.ok 3] : List (Result Nat Nat))
          (poolStartDefault ([Result.ok 1, Result.ok 2, Result.ok 3] :
            List (Result Nat Nat)) 2) 0).nextIndex
        = (poolStartDefault ([Result.ok 1, Result.ok 2, Result.ok 3] :
            List (Result Nat Nat)) 2).nextIndex + 1 ∧
      raceExecBoundOk ([Result.ok 1, Result.error 2] : List (Result Nat Nat)) 1
        (raceInit ([Result.ok 1, Result.error 2] : List (Result Nat Nat))) [[0], [1]]
        = true ∧
      (raceHandleDefault ([Result.ok 1, Result.error 2] : List (Result Nat Nat))
          (raceInit ([Result.ok 1, Result.error 2] : List (Result Nat Nat))) 0
          ).executing.length
        ≤ ((raceInit ([Result.ok 1, Result.error 2] : List (Result Nat Nat))) :
            RaceState Nat).executing.length :=
  ⟨all_bounded_concurrency_cap.1 [Result.ok 1, Result.ok 2, Result.ok 3] 2,
    all_bounded_concurrency_cap.2.1 [Result.ok 1, Result.ok 2, Result.ok 3] 2 [0, 1, 2]
      (by decide),
    all_bounded_concurrency_cap.2.2.1 [Result.ok 1, Result.ok 2, Result.ok 3]
      (poolStartDefault [Result.ok 1, Result.ok 2, Result.ok 3] 2) 0
      (by decide) (by decide) (by decide),
    all_bounded_concurrency_cap.2.2.2.1 [Result.ok 1, Result.error 2] 1 [[0], [1]],
    all_bounded_concurrency_cap.2.2.2.2 [Result.ok 1, Result.error 2]
      (raceInit [Result.ok 1, Result.error 2]) 0⟩

end Tryhard
